import Mathlib

/-!
# Verification of the megakolmio triangle-puzzle solver

A shallow embedding of `megakolmio.c`: nine triangular cards are placed on
nine board positions (filled in ascending order 0..8) and rotated so that
every adjacent pair of cells shows matching edge labels.  The embedding
translates the C program's data tables and functions into Lean definitions:

* a `Card*` pointer into the static `Deck` array is modelled by the deck
  index (a `Nat`); pointer identity is index equality;
* functions that mutate through a pointer are translated into state-passing
  style, returning the updated value alongside the C return value;
* the two abnormal paths of the C code — `exit(0)` inside `getCommonEdge`
  (the `NotNeighbors` fatal error) and the null-pointer dereference of
  `other->card` inside `matchesNeighbor` — are modelled by an `Except Fatal`
  result that propagates outward (in C the former prints an error message and
  terminates the process; the latter is undefined behaviour);
* the recursive search `solve` is given an explicit fuel parameter; a
  separate theorem shows the result is independent of the fuel once the fuel
  is large enough, which is the termination statement for the search.
-/

namespace Megakolmio

/-- The two abnormal exits of the C program: `getCommonEdge` calls `exit(0)`
when the queried positions are not neighbors, and `matchesNeighbor`
dereferences a null `other->card` pointer when the second placement is empty. -/
inductive Fatal where
  | notNeighbors : Fatal
  | nullCard : Fatal
deriving DecidableEq

/-- `NEIGHBORMAP` from the C source: triples
(lower position, higher position, common edge slot). -/
def NEIGHBORMAP : List (Nat × Nat × Nat) :=
  [ (0, 1, 0),
    (0, 2, 1),
    (0, 6, 2),
    (1, 5, 2),
    (2, 3, 2),
    (3, 4, 0),
    (3, 7, 1),
    (4, 5, 1),
    (5, 8, 0) ]

/-- The fixed geometric print order used by `output`. -/
def PRINTORDER : List Nat := [6, 2, 0, 1, 7, 3, 4, 5, 8]

def CARDS_IN_DECK : Nat := 9

def EDGES_IN_CARD : Nat := 3

/-- `struct Card`: a name and three edge labels. -/
structure Card where
  name : String
  edges : List String
deriving DecidableEq

/-- The static `Deck` array of the C source. -/
def Deck : List Card :=
  [ ⟨"P1", ["FH", "FB", "DH"]⟩,
    ⟨"P2", ["DH", "FB", "RB"]⟩,
    ⟨"P3", ["DH", "FB", "FH"]⟩,
    ⟨"P4", ["DH", "DB", "FB"]⟩,
    ⟨"P5", ["DH", "RB", "DB"]⟩,
    ⟨"P6", ["RB", "FB", "RH"]⟩,
    ⟨"P7", ["FB", "RH", "FH"]⟩,
    ⟨"P8", ["RH", "DH", "RB"]⟩,
    ⟨"P9", ["FB", "DB", "DH"]⟩ ]

/-- `struct PlayedCard`.  The `card` field models the `const Card*` pointer:
`none` is the NULL pointer and `some i` points at `Deck[i]`, so pointer
equality is equality of deck indices. -/
structure PlayedCard where
  rot : Nat
  position : Nat
  card : Option Nat
deriving DecidableEq

/-- Edge label `Deck[ci].edges[e]` (out-of-range access, impossible in the
states the program builds, yields a dummy value). -/
def cardEdge (ci : Nat) (e : Nat) : String :=
  (Deck.getD ci ⟨"", []⟩).edges.getD e ""

/-- First character of an edge label: the shape family. -/
def edgeFamily (s : String) : Char := s.toList.getD 0 ' '

/-- Second character of an edge label: the orientation. -/
def edgeOrientation (s : String) : Char := s.toList.getD 1 ' '

/-- `getCommonEdge`: linear scan of `NEIGHBORMAP` for the ordered pair of the
two placements' positions; the C code prints an error and calls `exit(0)` when
the pair is absent, modelled by `Except.error .notNeighbors`. -/
def getCommonEdge (p q : PlayedCard) : Except Fatal Nat :=
  match NEIGHBORMAP.find? (fun e => e.1 == p.position && e.2.1 == q.position) with
  | some e => .ok e.2.2
  | none => .error .notNeighbors

/-- `matchesNeighbor`.  The C code null-checks only `this->card`; when
`other->card` is NULL it dereferences it (undefined behaviour), modelled by
`Except.error .nullCard`.  Note the common-edge lookup happens before the
dereference of `other->card`, so `notNeighbors` takes precedence. -/
def matchesNeighbor (p q : PlayedCard) : Except Fatal Bool :=
  match p.card with
  | none => .ok false
  | some ci =>
    match getCommonEdge p q with
    | .error f => .error f
    | .ok common_edge =>
      match q.card with
      | none => .error .nullCard
      | some cj =>
        let e1 := cardEdge ci ((common_edge + p.rot) % EDGES_IN_CARD)
        let e2 := cardEdge cj ((common_edge + q.rot) % EDGES_IN_CARD)
        .ok (edgeFamily e1 == edgeFamily e2 && edgeOrientation e1 != edgeOrientation e2)

/-- `rotate`: the C function mutates its receiver and returns a `bool`;
the translation returns the pair (return value, updated receiver). -/
def rotate (p : PlayedCard) : Bool × PlayedCard :=
  if p.rot ≥ 2 then (false, p)
  else (true, { p with rot := p.rot + 1 })

/-- `struct GameState`.  `cardsOnBoard` is the 9-slot array of
possibly-NULL `PlayedCard*` pointers, modelled as a length-9 list of options. -/
structure GameState where
  nextOnBoard : Nat
  topOfTheDeck : Nat
  cardsOnBoard : List (Option PlayedCard)
deriving DecidableEq

/-- The board array produced by `replicate`: the fresh state is zeroed by
`calloc` (all slots NULL) and the copy loop breaks at the first NULL slot,
so only the prefix of non-NULL slots is copied. -/
def replicateBoard (l : List (Option PlayedCard)) : List (Option PlayedCard) :=
  l.takeWhile Option.isSome ++
    List.replicate (CARDS_IN_DECK - (l.takeWhile Option.isSome).length) none

/-- `replicate`: deep copy of a game state (each `PlayedCard` is `memcpy`ed,
so the copy shares no mutable memory with the original). -/
def replicate (s : GameState) : GameState :=
  { nextOnBoard := s.nextOnBoard
    topOfTheDeck := s.topOfTheDeck
    cardsOnBoard := replicateBoard s.cardsOnBoard }

/-- `isSolved` specialised to the remaining list of neighbor-map entries. -/
def isSolvedAux (s : GameState) (pb : Bool) : List (Nat × Nat × Nat) → Except Fatal Bool
  | [] => .ok true
  | e :: rest =>
    match s.cardsOnBoard.getD e.1 none, s.cardsOnBoard.getD e.2.1 none with
    | some c1, some c2 =>
      match matchesNeighbor c1 c2 with
      | .error f => .error f
      | .ok true => isSolvedAux s pb rest
      | .ok false => .ok false
    | _, _ => if pb then isSolvedAux s pb rest else .ok false

/-- `isSolved(this, partial)`: checks every entry of `NEIGHBORMAP`; an entry
with an empty side is skipped when `pb` (the `partial` flag) is true and fails
the check when it is false. -/
def isSolved (s : GameState) (pb : Bool) : Except Fatal Bool :=
  isSolvedAux s pb NEIGHBORMAP

/-- `output`: the solution line (without the trailing newline `printf` adds):
`[` + the 9 card names in `PRINTORDER` order, comma separated + `]`. -/
def outLine (s : GameState) : String :=
  "[" ++ String.intercalate ","
    (PRINTORDER.map (fun pos =>
      match s.cardsOnBoard.getD pos none with
      | some pc => (Deck.getD (pc.card.getD 0) ⟨"", []⟩).name
      | none => "")) ++ "]"

/-- `isCardOnBoard`: does some non-NULL slot hold a placement whose card
pointer equals `value` (pointer identity = deck-index equality)? -/
def isCardOnBoard (s : GameState) (value : Nat) : Bool :=
  s.cardsOnBoard.any (fun slot =>
    match slot with
    | some pc =>
      match pc.card with
      | some ci => ci == value
      | none => false
    | none => false)

/-- The scan loop inside `nextFromDeck`: the first index in `i .. 8` whose
deck card is not on the board (`for(i=...; i<CARDS_IN_DECK; i++)`). -/
def scanDeck (s : GameState) (i : Nat) : Option Nat :=
  ((List.range CARDS_IN_DECK).drop i).find? (fun j => !isCardOnBoard s j)

/-- `nextFromDeck`: scans the catalog from `topOfTheDeck` for the first card
not on the board; on success sets `topOfTheDeck` to that index and returns the
card (its deck index); on exhaustion returns NULL (`none`) and leaves the
state unchanged. -/
def nextFromDeck (s : GameState) : Option Nat × GameState :=
  if s.topOfTheDeck ≥ CARDS_IN_DECK then (none, s)
  else
    match scanDeck s s.topOfTheDeck with
    | some i => (some i, { s with topOfTheDeck := i })
    | none => (none, s)

/-- `addNewCard`: draw the next unused card and place it at position
`nextOnBoard` with rotation 0, then increment `nextOnBoard`.  (A `List.set`
past the end of the list is a no-op; in C that write would be out of bounds,
and it is unreachable from the states the driver builds.) -/
def addNewCard (s : GameState) : Bool × GameState :=
  match nextFromDeck s with
  | (none, s1) => (false, s1)
  | (some i, s1) =>
    let newcard : PlayedCard := { rot := 0, position := s1.nextOnBoard, card := some i }
    (true, { s1 with
              cardsOnBoard := s1.cardsOnBoard.set newcard.position (some newcard)
              nextOnBoard := s1.nextOnBoard + 1 })

/-- `replaceCard`: the C function receives a `PlayedCard*` pointing into the
board at index `last`; the pointer is modelled by the pair (index, current
value).  It draws the next unused card and overwrites the pointee's card and
rotation. -/
def replaceCard (s : GameState) (last : Nat) (pc : PlayedCard) : Bool × GameState :=
  match nextFromDeck s with
  | (none, s1) => (false, s1)
  | (some i, s1) =>
    (true, { s1 with
              cardsOnBoard := s1.cardsOnBoard.set last (some { pc with card := some i, rot := 0 }) })

/-- `getLastAdded`: the board slot at index `nextOnBoard - 1`. -/
def getLastAdded (s : GameState) : Option PlayedCard :=
  s.cardsOnBoard.getD (s.nextOnBoard - 1) none

/-- `first`: copy the board, reset `topOfTheDeck` to 0, and append a new card
at the next free position; NULL (`none`) when the deck is exhausted. -/
def first (s : GameState) : Option GameState :=
  let ns := { replicate s with topOfTheDeck := 0 }
  match addNewCard ns with
  | (false, _) => none
  | (true, ns1) => some ns1

/-- `next`: copy the board and advance the most recently placed card: rotate
it if possible, otherwise substitute the next unused card at rotation 0;
NULL (`none`) when both fail.  When the board is empty the C code
dereferences a NULL `getLastAdded` result (undefined behaviour, never reached
by the driver); the model returns `none` there. -/
def next (s : GameState) : Option GameState :=
  let ns := replicate s
  let last := ns.nextOnBoard - 1
  match ns.cardsOnBoard.getD last none with
  | none => none
  | some pc =>
    match rotate pc with
    | (true, pc1) => some { ns with cardsOnBoard := ns.cardsOnBoard.set last (some pc1) }
    | (false, _) =>
      match replaceCard ns last pc with
      | (false, _) => none
      | (true, ns1) => some ns1

/-- The recursive search, fuel-indexed and defunctionalised into a single
structurally-recursive function so that it reduces inside the kernel.
`Sum.inl g` is a call `solve(g)`; `Sum.inr o` is the `while(newstate != NULL)`
loop of `solve` with current loop variable `o`.  The result is the list of
solution lines printed, or the fatal error if one of the two abnormal C paths
is reached (it never is, starting from the empty board). -/
def stepF : Nat → GameState ⊕ Option GameState → Except Fatal (List String)
  | 0, _ => .ok []
  | n + 1, .inl g =>
    match isSolved g true with
    | .error f => .error f
    | .ok false => .ok []
    | .ok true =>
      match isSolved g false with
      | .error f => .error f
      | .ok full =>
        match stepF n (.inr (first g)) with
        | .error f => .error f
        | .ok rest => .ok ((if full then [outLine g] else []) ++ rest)
  | _ + 1, .inr none => .ok []
  | n + 1, .inr (some st) =>
    match stepF n (.inl st) with
    | .error f => .error f
    | .ok here =>
      match stepF n (.inr (next st)) with
      | .error f => .error f
      | .ok more => .ok (here ++ more)

/-- The recursive search `solve` with fuel `n`. -/
def solveF (n : Nat) (g : GameState) : Except Fatal (List String) :=
  stepF n (.inl g)

/-- The successor loop of `solve`: run `solve` on each state of the
`first`/`next` chain in order. -/
def loopF (n : Nat) (o : Option GameState) : Except Fatal (List String) :=
  stepF n (.inr o)

/-- The `calloc`ed initial state built in `main`: all fields zero, all board
slots NULL. -/
def emptyState : GameState :=
  { nextOnBoard := 0, topOfTheDeck := 0, cardsOnBoard := List.replicate CARDS_IN_DECK none }

/-- Iterating `next` along a sibling chain. -/
def nextIter : Nat → GameState → Option GameState
  | 0, c => some c
  | j + 1, c =>
    match next c with
    | none => none
    | some c2 => nextIter j c2

deriving instance DecidableEq for Except

/-- Well-formedness of one board slot: a placement stored at index `i` sits at
position `i`, has a rotation below 3, and holds a valid card pointer (the
`getD CARDS_IN_DECK` encoding makes "card is `some ci` with `ci < 9`" a single
decidable inequality). -/
def slotOK (i : Nat) (o : Option PlayedCard) : Bool :=
  match o with
  | none => true
  | some pc => pc.position == i && decide (pc.rot < 3) && decide (pc.card.getD CARDS_IN_DECK < CARDS_IN_DECK)

/-- The board-state invariant maintained by the search (claim C10): the board
is the 9-slot array, `nextOnBoard` is at most 9, the filled slots are exactly
the indices below `nextOnBoard` (a contiguous prefix), each filled slot is
well-formed, and the placed cards are pairwise distinct by identity. -/
def Inv (s : GameState) : Prop :=
  s.cardsOnBoard.length = CARDS_IN_DECK ∧
  s.nextOnBoard ≤ CARDS_IN_DECK ∧
  (∀ i < CARDS_IN_DECK, ((s.cardsOnBoard.getD i none).isSome = true ↔ i < s.nextOnBoard)) ∧
  (∀ i < CARDS_IN_DECK, slotOK i (s.cardsOnBoard.getD i none) = true) ∧
  (∀ i < CARDS_IN_DECK, ∀ j < CARDS_IN_DECK, i < j →
    (s.cardsOnBoard.getD j none = none ∨
      (s.cardsOnBoard.getD i none).bind PlayedCard.card ≠
        (s.cardsOnBoard.getD j none).bind PlayedCard.card))

instance (s : GameState) : Decidable (Inv s) := by
  unfold Inv
  infer_instance

/-- The deck-cursor invariant of the sibling chain: either the board is empty,
or `topOfTheDeck` is exactly the deck index of the most recently placed card.
It holds for every state produced by `first` and is preserved by `next`. -/
def DInv (s : GameState) : Prop :=
  s.nextOnBoard = 0 ∨
    (s.cardsOnBoard.getD (s.nextOnBoard - 1) none).bind PlayedCard.card = some s.topOfTheDeck

instance (s : GameState) : Decidable (DInv s) := by
  unfold DInv
  infer_instance

/-- States reachable from the empty board through the transition operations,
exactly as the driver `solve` produces them. -/
inductive Reachable : GameState → Prop where
  | root : Reachable emptyState
  | viaFirst {s t : GameState} : Reachable s → first s = some t → Reachable t
  | viaNext {s t : GameState} : Reachable s → next s = some t → Reachable t

/-- Strictly decreasing measure along a `next` chain: `next` either bumps the
last card's rotation (second summand drops) or substitutes a strictly later
deck card (first summand drops by at least 3). -/
def chainM (s : GameState) : Nat :=
  3 * (CARDS_IN_DECK - s.topOfTheDeck) +
    (2 - ((s.cardsOnBoard.getD (s.nextOnBoard - 1) none).map PlayedCard.rot).getD 0)

/-- Fuel bound for the search from a given argument of `stepF`: enough fuel
for the remaining recursion depth (`solve` descends one board position per
level) and the at most 29 steps of each sibling chain. -/
def stepBound : GameState ⊕ Option GameState → Nat
  | .inl s => (CARDS_IN_DECK + 1 - s.nextOnBoard) * 100
  | .inr none => 0
  | .inr (some c) => (CARDS_IN_DECK + 1 - c.nextOnBoard) * 100 + chainM c + 1

/-- The hypotheses under which the fuel bound is valid: board states passed to
`solve` satisfy the board invariant, and chain states additionally satisfy the
cursor invariant and are nonempty. -/
def stepOK : GameState ⊕ Option GameState → Prop
  | .inl s => Inv s
  | .inr none => True
  | .inr (some c) => Inv c ∧ DInv c ∧ 1 ≤ c.nextOnBoard

/-- The full search as run by `main`: fuel 1000 equals `stepBound` for the
empty board, so by the stability theorem this is the completed search. -/
def solveRun : Except Fatal (List String) :=
  solveF 1000 emptyState

/-- The nine catalog card names in deck order. -/
def deckNames : List String :=
  Deck.map Card.name

/-! ## Theorems -/

/-- Reading back the written slot of a `set`. -/
theorem getD_set_self {α : Type} (l : List α) (i : Nat) (a d : α) (h : i < l.length) :
    (l.set i a).getD i d = a := by
  rw [List.getD_eq_getD_get?, List.get?_set_eq_of_lt a h]
  rfl

/-- Reading any other slot of a `set`. -/
theorem getD_set_ne {α : Type} (l : List α) {i j : Nat} (a d : α) (h : i ≠ j) :
    (l.set i a).getD j d = l.getD j d := by
  rw [List.getD_eq_getD_get?, List.get?_set_ne a l h, ← List.getD_eq_getD_get?]

/-- A list whose every slot reads `none` is a `replicate` of `none`. -/
theorem list_all_none {α : Type} : ∀ (l : List (Option α)),
    (∀ i, i < l.length → l.getD i none = none) → l = List.replicate l.length none := by
  intro l
  induction l with
  | nil => intro _; rfl
  | cons a t ih =>
    intro h
    have h0 := h 0 (by simp)
    rw [List.getD_cons_zero] at h0
    subst h0
    have ht := ih (fun i hi => by
      have := h (i + 1) (by simpa using Nat.succ_lt_succ hi)
      rwa [List.getD_cons_succ] at this)
    rw [List.length_cons, List.replicate_succ]
    exact congrArg (none :: ·) ht

/-- A list whose filled slots are exactly the indices below `n` is unchanged
by taking its `isSome` prefix and padding with `none` back to its length. -/
theorem takeWhile_pad_eq {α : Type} : ∀ (l : List (Option α)) (n : Nat),
    (∀ i, i < l.length → ((l.getD i none).isSome = true ↔ i < n)) →
    l.takeWhile Option.isSome ++
      List.replicate (l.length - (l.takeWhile Option.isSome).length) none = l := by
  intro l
  induction l with
  | nil => intro n _; rfl
  | cons a t ih =>
    intro n h
    have h0 := h 0 (by simp)
    rw [List.getD_cons_zero] at h0
    cases n with
    | zero =>
      have ha : a = none := by
        cases a with
        | none => rfl
        | some x => simp at h0
      subst ha
      have hall : ∀ i, i < (none :: t : List (Option α)).length →
          (none :: t : List (Option α)).getD i none = none := by
        intro i hi
        cases i with
        | zero => rfl
        | succ j =>
          have hj := h (j + 1) hi
          cases hgd : (none :: t : List (Option α)).getD (j + 1) none with
          | none => rfl
          | some x => rw [hgd] at hj; simp at hj
      have hrep := list_all_none (none :: t) hall
      rw [show ((none :: t : List (Option α)).takeWhile Option.isSome) = [] from rfl]
      simpa using hrep.symm
    | succ m =>
      obtain ⟨x, rfl⟩ : ∃ x, a = some x := by
        cases a with
        | some x => exact ⟨x, rfl⟩
        | none => simp at h0
      have ht := ih m (fun i hi => by
        have := h (i + 1) (by simpa using Nat.succ_lt_succ hi)
        rw [List.getD_cons_succ] at this
        simpa [Nat.succ_lt_succ_iff] using this)
      rw [List.takeWhile_cons_of_pos (show Option.isSome (some x) = true from rfl)]
      simp only [List.length_cons, List.cons_append]
      rw [Nat.succ_sub_succ]
      exact congrArg (some x :: ·) ht

/-- On an invariant-satisfying state the structural copy `replicate` is
value-faithful: the copy equals the original. -/
theorem replicate_inv_eq (s : GameState) (h : Inv s) : replicate s = s := by
  obtain ⟨hlen, -, hsome, -, -⟩ := h
  have hb : replicateBoard s.cardsOnBoard = s.cardsOnBoard := by
    have hpad := takeWhile_pad_eq s.cardsOnBoard s.nextOnBoard (fun i hi =>
      hsome i (by rwa [hlen] at hi))
    rw [hlen] at hpad
    exact hpad
  unfold replicate
  rw [hb]

/-- `scanDeck` past the end of the deck finds nothing. -/
theorem scanDeck_ge (s : GameState) (i : Nat) (h : CARDS_IN_DECK ≤ i) :
    scanDeck s i = none := by
  unfold scanDeck
  rw [List.drop_eq_nil_of_le (by simpa using h)]
  rfl

/-- Unfolding one step of the `scanDeck` loop. -/
theorem scanDeck_step (s : GameState) (i : Nat) (h : i < CARDS_IN_DECK) :
    scanDeck s i = if isCardOnBoard s i then scanDeck s (i + 1) else some i := by
  unfold scanDeck
  rw [List.drop_eq_getElem_cons (by simpa using h), List.getElem_range]
  cases hc : isCardOnBoard s i
  · rw [List.find?_cons_of_pos _ (by simp [hc]), if_neg (by simp)]
  · rw [List.find?_cons_of_neg _ (by simp [hc]), if_pos rfl]

/-- What a successful `scanDeck` from `i` guarantees: the result is the first
index at or after `i` whose deck card is not on the board. -/
theorem scanDeck_some_spec : ∀ (d i k : Nat) (s : GameState), CARDS_IN_DECK - i ≤ d →
    scanDeck s i = some k →
    i ≤ k ∧ k < CARDS_IN_DECK ∧ isCardOnBoard s k = false ∧
      ∀ j, i ≤ j → j < k → isCardOnBoard s j = true := by
  intro d
  induction d with
  | zero =>
    intro i k s hd hscan
    rw [scanDeck_ge _ _ (by omega)] at hscan
    cases hscan
  | succ d ih =>
    intro i k s hd hscan
    by_cases hi : i < CARDS_IN_DECK
    · rw [scanDeck_step _ _ hi] at hscan
      cases hc : isCardOnBoard s i
      · rw [hc, if_neg (by simp)] at hscan
        have hk : i = k := by simpa using hscan
        subst hk
        exact ⟨Nat.le_refl i, hi, hc, fun j h1 h2 => absurd (Nat.lt_of_le_of_lt h1 h2) (Nat.lt_irrefl i)⟩
      · rw [hc, if_pos rfl] at hscan
        obtain ⟨hik, hk9, hunused, hbefore⟩ := ih (i + 1) k s (by omega) hscan
        refine ⟨by omega, hk9, hunused, fun j h1 h2 => ?_⟩
        rcases Nat.eq_or_lt_of_le h1 with rfl | hlt
        · exact hc
        · exact hbefore j hlt h2
    · rw [scanDeck_ge _ _ (by omega)] at hscan
      cases hscan

/-- `scanDeck` fails exactly when every deck card from `i` onward is already
on the board. -/
theorem scanDeck_none_spec : ∀ (d i : Nat) (s : GameState), CARDS_IN_DECK - i ≤ d →
    (scanDeck s i = none ↔ ∀ j, i ≤ j → j < CARDS_IN_DECK → isCardOnBoard s j = true) := by
  intro d
  induction d with
  | zero =>
    intro i s hd
    rw [scanDeck_ge _ _ (by omega)]
    exact ⟨fun _ j h1 h2 => absurd (Nat.lt_of_le_of_lt h1 h2) (by omega), fun _ => rfl⟩
  | succ d ih =>
    intro i s hd
    by_cases hi : i < CARDS_IN_DECK
    · rw [scanDeck_step _ _ hi]
      cases hc : isCardOnBoard s i
      · rw [if_neg (by simp)]
        constructor
        · intro h; cases h
        · intro h
          rw [h i (Nat.le_refl i) hi] at hc
          cases hc
      · rw [if_pos rfl]
        rw [ih (i + 1) s (by omega)]
        constructor
        · intro h j h1 h2
          rcases Nat.eq_or_lt_of_le h1 with rfl | hlt
          · exact hc
          · exact h j hlt h2
        · intro h j h1 h2
          exact h j (by omega) h2
    · rw [scanDeck_ge _ _ (by omega)]
      exact ⟨fun _ j h1 h2 => absurd (Nat.lt_of_le_of_lt h1 h2) (by omega), fun _ => rfl⟩

/-- Claim C6: `nextFromDeck` scans the catalog starting at `topOfTheDeck`,
never returns a card already on the board, sets `topOfTheDeck` to the index of
the returned card (hence the cursor never decreases, also across repeated
calls), and returns NULL (`NoCardsLeft`) exactly when every card from the
cursor through the end of the catalog is already on the board. -/
theorem nextFromDeck_some (s : GameState) (i : Nat) (h : (nextFromDeck s).1 = some i) :
    isCardOnBoard s i = false ∧
    s.topOfTheDeck ≤ i ∧ i < CARDS_IN_DECK ∧
    (∀ j, s.topOfTheDeck ≤ j → j < i → isCardOnBoard s j = true) ∧
    (nextFromDeck s).2 = { s with topOfTheDeck := i } := by
  unfold nextFromDeck at h ⊢
  by_cases hge : s.topOfTheDeck ≥ CARDS_IN_DECK
  · rw [if_pos hge] at h
    simp at h
  · rw [if_neg hge] at h ⊢
    cases hscan : scanDeck s s.topOfTheDeck with
    | none =>
      rw [hscan] at h
      simp at h
    | some k =>
      rw [hscan] at h
      have hk : k = i := by simpa using h
      subst hk
      obtain ⟨h1, h2, h3, h4⟩ :=
        scanDeck_some_spec CARDS_IN_DECK s.topOfTheDeck k s (by omega) hscan
      exact ⟨h3, h1, h2, h4, rfl⟩

theorem nextFromDeck_none_iff (s : GameState) :
    (nextFromDeck s).1 = none ↔
      ∀ j, s.topOfTheDeck ≤ j → j < CARDS_IN_DECK → isCardOnBoard s j = true := by
  unfold nextFromDeck
  by_cases hge : s.topOfTheDeck ≥ CARDS_IN_DECK
  · rw [if_pos hge]
    exact ⟨fun _ j h1 h2 => absurd (Nat.lt_of_le_of_lt h1 h2) (by omega), fun _ => rfl⟩
  · rw [if_neg hge]
    cases hscan : scanDeck s s.topOfTheDeck with
    | none =>
      constructor
      · intro _
        exact (scanDeck_none_spec CARDS_IN_DECK s.topOfTheDeck s (by omega)).mp hscan
      · intro _
        rfl
    | some k =>
      obtain ⟨h1, h2, h3, h4⟩ :=
        scanDeck_some_spec CARDS_IN_DECK s.topOfTheDeck k s (by omega) hscan
      constructor
      · intro hcon
        simp at hcon
      · intro hall
        rw [hall k h1 h2] at h3
        cases h3

theorem nextFromDeck_none_state (s : GameState) (h : (nextFromDeck s).1 = none) :
    (nextFromDeck s).2 = s := by
  unfold nextFromDeck at h ⊢
  by_cases hge : s.topOfTheDeck ≥ CARDS_IN_DECK
  · rw [if_pos hge]
  · rw [if_neg hge] at h ⊢
    cases hscan : scanDeck s s.topOfTheDeck with
    | none => rfl
    | some k =>
      rw [hscan] at h
      simp at h

/-- Claim C6: `nextFromDeck` scans the catalog starting at `topOfTheDeck`,
never returns a card already on the board, sets `topOfTheDeck` to the index of
the returned card (hence the cursor never decreases, also across repeated
calls), and returns NULL (`NoCardsLeft`) exactly when every card from the
cursor through the end of the catalog is already on the board. -/
theorem nextFromDeck_spec (s : GameState) :
    (∀ i, (nextFromDeck s).1 = some i →
      isCardOnBoard s i = false ∧
      s.topOfTheDeck ≤ i ∧ i < CARDS_IN_DECK ∧
      (∀ j, s.topOfTheDeck ≤ j → j < i → isCardOnBoard s j = true) ∧
      (nextFromDeck s).2 = { s with topOfTheDeck := i }) ∧
    ((nextFromDeck s).1 = none ↔
      ∀ j, s.topOfTheDeck ≤ j → j < CARDS_IN_DECK → isCardOnBoard s j = true) ∧
    ((nextFromDeck s).1 = none → (nextFromDeck s).2 = s) :=
  ⟨fun i h => nextFromDeck_some s i h, nextFromDeck_none_iff s,
   fun h => nextFromDeck_none_state s h⟩

/-- Index-level characterisation of `isCardOnBoard`. -/
theorem isCardOnBoard_iff (s : GameState) (v : Nat) :
    isCardOnBoard s v = true ↔
      ∃ i, i < s.cardsOnBoard.length ∧
        ∃ pc, s.cardsOnBoard.getD i none = some pc ∧ pc.card = some v := by
  unfold isCardOnBoard
  rw [List.any_eq_true]
  constructor
  · rintro ⟨slot, hmem, hp⟩
    obtain ⟨i, hi, hslot⟩ := List.getElem_of_mem hmem
    refine ⟨i, hi, ?_⟩
    cases slot with
    | none => simp at hp
    | some pc =>
      refine ⟨pc, by rw [List.getD_eq_getElem _ _ hi, hslot], ?_⟩
      have hred : (match pc.card with | some ci => ci == v | none => false) = true := hp
      cases hc : pc.card with
      | none =>
        rw [hc] at hred
        simp at hred
      | some ci =>
        rw [hc] at hred
        simp at hred
        rw [hred]
  · rintro ⟨i, hi, pc, hgd, hcard⟩
    rw [List.getD_eq_getElem _ _ hi] at hgd
    refine ⟨some pc, ?_, ?_⟩
    · rw [← hgd]
      exact List.getElem_mem hi
    · simp [hcard]

/-- Unpacking `slotOK` on a filled slot. -/
theorem slotOK_some (i : Nat) (pc : PlayedCard) (h : slotOK i (some pc) = true) :
    pc.position = i ∧ pc.rot < 3 ∧ ∃ ci, pc.card = some ci ∧ ci < CARDS_IN_DECK := by
  simp only [slotOK, Bool.and_eq_true, beq_iff_eq, decide_eq_true_eq] at h
  obtain ⟨⟨h1, h2⟩, h3⟩ := h
  refine ⟨h1, h2, ?_⟩
  cases hc : pc.card with
  | none =>
    rw [hc] at h3
    simp at h3
  | some ci =>
    rw [hc] at h3
    exact ⟨ci, rfl, by simpa using h3⟩

/-- Building `slotOK` for a well-formed placement literal. -/
theorem slotOK_mk (i rotv ci : Nat) (h2 : rotv < 3) (h3 : ci < CARDS_IN_DECK) :
    slotOK i (some ⟨rotv, i, some ci⟩) = true := by
  simp [slotOK, h2, h3]

/-- Pigeonhole on the full board: when all 9 positions are filled with
pairwise distinct valid cards, every deck card is on the board. -/
theorem full_board_all_used (s : GameState) (h : Inv s)
    (hfull : CARDS_IN_DECK ≤ s.nextOnBoard) :
    ∀ v, v < CARDS_IN_DECK → isCardOnBoard s v = true := by
  obtain ⟨hlen, hn9, hsome, hok, hdist⟩ := h
  intro v hv
  have hslot : ∀ i : Fin CARDS_IN_DECK, ∃ ci : Fin CARDS_IN_DECK,
      (s.cardsOnBoard.getD i.val none).bind PlayedCard.card = some ci.val := by
    intro i
    have h1 := (hsome i.val i.isLt).mpr (by omega)
    cases hgd : s.cardsOnBoard.getD i.val none with
    | none => rw [hgd] at h1; simp at h1
    | some pc =>
      have h2 := hok i.val i.isLt
      rw [hgd] at h2
      obtain ⟨-, -, ci, hci, hciLt⟩ := slotOK_some i.val pc h2
      exact ⟨⟨ci, hciLt⟩, hci⟩
  choose f hf using hslot
  have hinj : Function.Injective f := by
    intro i j hij
    by_contra hne
    have hvne : i.val ≠ j.val := fun hv2 => hne (Fin.ext hv2)
    rcases Nat.lt_or_ge i.val j.val with hlt | hge
    · rcases hdist i.val i.isLt j.val j.isLt hlt with hnone | hne2
      · have hcontra := hf j
        rw [hnone] at hcontra
        simp at hcontra
      · exact hne2 (by rw [hf i, hf j, hij])
    · have hlt : j.val < i.val := by omega
      rcases hdist j.val j.isLt i.val i.isLt hlt with hnone | hne2
      · have hcontra := hf i
        rw [hnone] at hcontra
        simp at hcontra
      · exact hne2 (by rw [hf j, hf i, hij])
  have hsurj : Function.Surjective f := Finite.surjective_of_injective hinj
  obtain ⟨i, hi⟩ := hsurj ⟨v, hv⟩
  rw [isCardOnBoard_iff]
  have hbind := hf i
  rw [hi] at hbind
  obtain ⟨pc, hpc, hpcv⟩ := Option.bind_eq_some.mp hbind
  exact ⟨i.val, by rw [hlen]; exact i.isLt, pc, hpc, hpcv⟩

/-- A card that is not on the board differs from every placed card. -/
theorem not_onBoard_card_ne (s : GameState) (v : Nat) (hv : isCardOnBoard s v = false)
    (j : Nat) (hj : j < s.cardsOnBoard.length) (pc : PlayedCard)
    (hgd : s.cardsOnBoard.getD j none = some pc) : pc.card ≠ some v := by
  intro hcon
  have := (isCardOnBoard_iff s v).mpr ⟨j, hj, pc, hgd, hcon⟩
  rw [this] at hv
  cases hv

/-- The invariant ignores the deck cursor. -/
theorem Inv_set_top (s : GameState) (t : Nat) (h : Inv s) :
    Inv { s with topOfTheDeck := t } := h

/-- Preservation along `first`: the successor state satisfies the board and
cursor invariants, sits one position deeper, and exists only when the board
was not yet full. -/
theorem first_some_pres (s t : GameState) (h : Inv s) (hft : first s = some t) :
    Inv t ∧ DInv t ∧ t.nextOnBoard = s.nextOnBoard + 1 ∧ s.nextOnBoard < CARDS_IN_DECK := by
  obtain ⟨hlen, hn9, hsome, hok, hdist⟩ := h
  unfold first at hft
  rw [replicate_inv_eq s ⟨hlen, hn9, hsome, hok, hdist⟩] at hft
  unfold addNewCard at hft
  dsimp only at hft
  rcases hnd : nextFromDeck { s with topOfTheDeck := 0 } with ⟨res, s1⟩
  rw [hnd] at hft
  cases res with
  | none => simp at hft
  | some i =>
    obtain ⟨hunused, hcur0, hi9, hskip, hstate⟩ :=
      nextFromDeck_some { s with topOfTheDeck := 0 } i (by rw [hnd])
    rw [hnd] at hstate
    have hs1 : s1 = { s with topOfTheDeck := i } := hstate
    subst hs1
    have ht := (Option.some.inj hft).symm
    subst ht
    have hfull : s.nextOnBoard < CARDS_IN_DECK := by
      by_contra hge
      have hall := full_board_all_used s ⟨hlen, hn9, hsome, hok, hdist⟩ (by omega)
      have : isCardOnBoard { s with topOfTheDeck := 0 } i = isCardOnBoard s i := rfl
      rw [this, hall i hi9] at hunused
      cases hunused
    have hsetlen : s.nextOnBoard < s.cardsOnBoard.length := by rw [hlen]; exact hfull
    have hunused2 : isCardOnBoard s i = false := hunused
    refine ⟨⟨?_, ?_, ?_, ?_, ?_⟩, ?_, rfl, hfull⟩
    · dsimp only
      rw [List.length_set]
      exact hlen
    · dsimp only
      omega
    · intro j hj
      dsimp only
      by_cases hjn : j = s.nextOnBoard
      · subst hjn
        rw [getD_set_self _ _ _ _ hsetlen]
        simp
      · rw [getD_set_ne _ _ _ (fun hh => hjn hh.symm)]
        rw [hsome j hj]
        omega
    · intro j hj
      dsimp only
      by_cases hjn : j = s.nextOnBoard
      · subst hjn
        rw [getD_set_self _ _ _ _ hsetlen]
        exact slotOK_mk _ 0 i (by omega) hi9
      · rw [getD_set_ne _ _ _ (fun hh => hjn hh.symm)]
        exact hok j hj
    · intro a ha b hb hab
      dsimp only
      by_cases hbn : b = s.nextOnBoard
      · subst hbn
        right
        have han : s.nextOnBoard ≠ a := by omega
        rw [getD_set_self _ _ _ _ hsetlen, getD_set_ne _ _ _ han]
        intro hcon
        have hbind : (s.cardsOnBoard.getD a none).bind PlayedCard.card = some i := hcon
        obtain ⟨pca, hpca, hpcac⟩ := Option.bind_eq_some.mp hbind
        exact not_onBoard_card_ne s i hunused2 a (by rw [hlen]; omega) pca hpca hpcac
      · by_cases han : a = s.nextOnBoard
        · subst han
          left
          rw [getD_set_ne _ _ _ (fun hh => hbn hh.symm)]
          have hb2 := hsome b hb
          cases hgdb : s.cardsOnBoard.getD b none with
          | none => rfl
          | some pcb =>
            rw [hgdb] at hb2
            simp at hb2
            omega
        · rw [getD_set_ne _ _ _ (fun hh => han hh.symm),
            getD_set_ne _ _ _ (fun hh => hbn hh.symm)]
          exact hdist a ha b hb hab
    · right
      dsimp only
      rw [Nat.add_sub_cancel, getD_set_self _ _ _ _ hsetlen]
      rfl

/-- Preservation along `next`: the sibling successor satisfies the board and
cursor invariants, stays at the same depth, and strictly decreases the chain
measure (so every `next` chain is finite). -/
theorem next_some_pres (c c' : GameState) (h : Inv c) (hd : DInv c)
    (hn : 1 ≤ c.nextOnBoard) (hnx : next c = some c') :
    Inv c' ∧ DInv c' ∧ c'.nextOnBoard = c.nextOnBoard ∧ chainM c' < chainM c := by
  obtain ⟨hlen, hn9, hsome, hok, hdist⟩ := h
  have hdr : (c.cardsOnBoard.getD (c.nextOnBoard - 1) none).bind PlayedCard.card =
      some c.topOfTheDeck := by
    rcases hd with h0 | h2
    · omega
    · exact h2
  obtain ⟨pc, hgd, hpcc⟩ := Option.bind_eq_some.mp hdr
  have hlast9 : c.nextOnBoard - 1 < CARDS_IN_DECK := by omega
  have hlastlen : c.nextOnBoard - 1 < c.cardsOnBoard.length := by rw [hlen]; omega
  have hokpc := hok _ hlast9
  rw [hgd] at hokpc
  obtain ⟨hpos, hrot3, ci, hci, hci9⟩ := slotOK_some _ pc hokpc
  have hcitop : ci = c.topOfTheDeck := by
    rw [hci] at hpcc
    exact Option.some.inj hpcc
  have htop9 : c.topOfTheDeck < CARDS_IN_DECK := by omega
  have htopon : isCardOnBoard c c.topOfTheDeck = true :=
    (isCardOnBoard_iff _ _).mpr ⟨c.nextOnBoard - 1, hlastlen, pc, hgd, hpcc⟩
  unfold next at hnx
  rw [replicate_inv_eq c ⟨hlen, hn9, hsome, hok, hdist⟩] at hnx
  dsimp only at hnx
  rw [hgd] at hnx
  simp only [] at hnx
  unfold rotate at hnx
  by_cases hrot : pc.rot ≥ 2
  · rw [if_pos hrot] at hnx
    dsimp only at hnx
    unfold replaceCard at hnx
    rcases hnd : nextFromDeck c with ⟨res, s1⟩
    rw [hnd] at hnx
    cases res with
    | none => simp at hnx
    | some i =>
      obtain ⟨hunused, hcur, hi9, hskip, hstate⟩ := nextFromDeck_some c i (by rw [hnd])
      rw [hnd] at hstate
      have hs1 : s1 = { c with topOfTheDeck := i } := hstate
      subst hs1
      have hc2 := (Option.some.inj hnx).symm
      subst hc2
      have hito : c.topOfTheDeck < i := by
        rcases Nat.eq_or_lt_of_le hcur with heq | hlt
        · rw [← heq, htopon] at hunused
          cases hunused
        · exact hlt
      refine ⟨⟨?_, ?_, ?_, ?_, ?_⟩, ?_, rfl, ?_⟩
      · dsimp only
        rw [List.length_set]
        exact hlen
      · exact hn9
      · intro j hj
        dsimp only
        by_cases hjn : j = c.nextOnBoard - 1
        · subst hjn
          rw [getD_set_self _ _ _ _ hlastlen]
          simp
          omega
        · rw [getD_set_ne _ _ _ (fun hh => hjn hh.symm)]
          exact hsome j hj
      · intro j hj
        dsimp only
        by_cases hjn : j = c.nextOnBoard - 1
        · subst hjn
          rw [getD_set_self _ _ _ _ hlastlen]
          simp only [slotOK, Bool.and_eq_true, beq_iff_eq, decide_eq_true_eq]
          refine ⟨⟨hpos, by omega⟩, by simpa using hi9⟩
        · rw [getD_set_ne _ _ _ (fun hh => hjn hh.symm)]
          exact hok j hj
      · intro a ha b hb hab
        dsimp only
        by_cases hbn : b = c.nextOnBoard - 1
        · subst hbn
          right
          have han : c.nextOnBoard - 1 ≠ a := by omega
          rw [getD_set_self _ _ _ _ hlastlen, getD_set_ne _ _ _ han]
          intro hcon
          have hbind : (c.cardsOnBoard.getD a none).bind PlayedCard.card = some i := hcon
          obtain ⟨pca, hpca, hpcac⟩ := Option.bind_eq_some.mp hbind
          exact not_onBoard_card_ne c i hunused a (by rw [hlen]; omega) pca hpca hpcac
        · by_cases han : a = c.nextOnBoard - 1
          · subst han
            left
            rw [getD_set_ne _ _ _ (fun hh => hbn hh.symm)]
            have hb2 := hsome b hb
            cases hgdb : c.cardsOnBoard.getD b none with
            | none => rfl
            | some pcb =>
              rw [hgdb] at hb2
              simp at hb2
              omega
          · rw [getD_set_ne _ _ _ (fun hh => han hh.symm),
              getD_set_ne _ _ _ (fun hh => hbn hh.symm)]
            exact hdist a ha b hb hab
      · right
        dsimp only
        rw [getD_set_self _ _ _ _ hlastlen]
        rfl
      · unfold chainM
        dsimp only
        rw [getD_set_self _ _ _ _ hlastlen, hgd]
        simp only [Option.map_some', Option.getD_some]
        omega
  · rw [if_neg hrot] at hnx
    dsimp only at hnx
    have hc2 := (Option.some.inj hnx).symm
    subst hc2
    refine ⟨⟨?_, ?_, ?_, ?_, ?_⟩, ?_, rfl, ?_⟩
    · dsimp only
      rw [List.length_set]
      exact hlen
    · exact hn9
    · intro j hj
      dsimp only
      by_cases hjn : j = c.nextOnBoard - 1
      · subst hjn
        rw [getD_set_self _ _ _ _ hlastlen]
        simp
        omega
      · rw [getD_set_ne _ _ _ (fun hh => hjn hh.symm)]
        exact hsome j hj
    · intro j hj
      dsimp only
      by_cases hjn : j = c.nextOnBoard - 1
      · subst hjn
        rw [getD_set_self _ _ _ _ hlastlen]
        simp only [slotOK, Bool.and_eq_true, beq_iff_eq, decide_eq_true_eq]
        refine ⟨⟨hpos, by omega⟩, ?_⟩
        rw [hci]
        simpa using hci9
      · rw [getD_set_ne _ _ _ (fun hh => hjn hh.symm)]
        exact hok j hj
    · intro a ha b hb hab
      dsimp only
      have hb1 : (some ({ pc with rot := pc.rot + 1 } : PlayedCard)).bind PlayedCard.card =
          (some pc).bind PlayedCard.card := rfl
      by_cases hbn : b = c.nextOnBoard - 1
      · subst hbn
        rcases hdist a ha _ hlast9 hab with hnone | hne2
        · rw [hgd] at hnone
          cases hnone
        · right
          have han : c.nextOnBoard - 1 ≠ a := by omega
          rw [getD_set_self _ _ _ _ hlastlen, getD_set_ne _ _ _ han, hb1]
          rw [hgd] at hne2
          exact hne2
      · by_cases han : a = c.nextOnBoard - 1
        · subst han
          rcases hdist _ hlast9 b hb hab with hnone | hne2
          · left
            rw [getD_set_ne _ _ _ (fun hh => hbn hh.symm)]
            exact hnone
          · right
            rw [getD_set_self _ _ _ _ hlastlen, getD_set_ne _ _ _ (fun hh => hbn hh.symm), hb1]
            rw [hgd] at hne2
            exact hne2
        · rw [getD_set_ne _ _ _ (fun hh => han hh.symm),
            getD_set_ne _ _ _ (fun hh => hbn hh.symm)]
          exact hdist a ha b hb hab
    · right
      dsimp only
      rw [getD_set_self _ _ _ _ hlastlen]
      have : ({ pc with rot := pc.rot + 1 } : PlayedCard).card = some c.topOfTheDeck := hpcc
      exact this
    · unfold chainM
      dsimp only
      rw [getD_set_self _ _ _ _ hlastlen, hgd]
      simp only [Option.map_some', Option.getD_some]
      omega

/-- Witness for C6: the first draw from the empty board returns deck index 0
and sets the cursor to 0. -/
theorem nextFromDeck_spec_witness :
    isCardOnBoard emptyState 0 = false ∧
    emptyState.topOfTheDeck ≤ 0 ∧ 0 < CARDS_IN_DECK ∧
    (∀ j, emptyState.topOfTheDeck ≤ j → j < 0 → isCardOnBoard emptyState j = true) ∧
    (nextFromDeck emptyState).2 = { emptyState with topOfTheDeck := 0 } :=
  (nextFromDeck_spec emptyState).1 0 rfl

/-- The neighbor map has one entry per ordered position pair, so the linear
scan of `getCommonEdge` finds exactly the member entry. -/
theorem find_entry : ∀ (a b c : Nat), (a, b, c) ∈ NEIGHBORMAP →
    NEIGHBORMAP.find? (fun x => x.1 == a && x.2.1 == b) = some (a, b, c) := by
  intro a b c he
  fin_cases he <;> rfl

/-- `getCommonEdge` on a pair of placements whose positions form a table entry
returns that entry's common-edge slot. -/
theorem getCommonEdge_ok (p q : PlayedCard) (a b c : Nat)
    (hmem : (a, b, c) ∈ NEIGHBORMAP) (hpa : p.position = a) (hqb : q.position = b) :
    getCommonEdge p q = Except.ok c := by
  subst hpa; subst hqb
  unfold getCommonEdge
  rw [find_entry p.position q.position c hmem]

/-- `getCommonEdge` on a pair of positions absent from the table reaches the
fatal `exit(0)` path. -/
theorem getCommonEdge_notNeighbors (p q : PlayedCard)
    (h : ∀ c, (p.position, q.position, c) ∉ NEIGHBORMAP) :
    getCommonEdge p q = Except.error Fatal.notNeighbors := by
  unfold getCommonEdge
  have hnone : NEIGHBORMAP.find? (fun x => x.1 == p.position && x.2.1 == q.position) = none := by
    rw [List.find?_eq_none]
    intro x hx hpred
    simp only [Bool.and_eq_true, beq_iff_eq] at hpred
    exact h x.2.2 (by
      have : x = (p.position, q.position, x.2.2) := by
        rcases x with ⟨x1, x2, x3⟩
        simp_all
      rw [← this]
      exact hx)
  rw [hnone]

/-- Evaluation of `matchesNeighbor` on two non-empty placements whose
positions form a table entry with slot `c`: the comparison of the two edge
labels at the rotated indices. -/
theorem matchesNeighbor_eval (p q : PlayedCard) (a b c ci cj : Nat)
    (hmem : (a, b, c) ∈ NEIGHBORMAP) (hpa : p.position = a) (hqb : q.position = b)
    (hpc : p.card = some ci) (hqc : q.card = some cj) :
    matchesNeighbor p q = Except.ok
      (edgeFamily (cardEdge ci ((c + p.rot) % EDGES_IN_CARD)) ==
        edgeFamily (cardEdge cj ((c + q.rot) % EDGES_IN_CARD)) &&
       edgeOrientation (cardEdge ci ((c + p.rot) % EDGES_IN_CARD)) !=
        edgeOrientation (cardEdge cj ((c + q.rot) % EDGES_IN_CARD))) := by
  have hce := getCommonEdge_ok p q a b c hmem hpa hqb
  unfold matchesNeighbor
  rw [hpc, hce, hqc]

/-- Claim C2: for non-empty adjacent placements `p` (lower position) and `q`
(higher position) with common slot `c` from the topology table,
`matchesNeighbor p q` reads the edge label of `p`'s card at index
`(c + p.rotation) % 3` and of `q`'s card at index `(c + q.rotation) % 3`, and
returns true iff the shape-family characters agree and the orientation
characters differ. -/
theorem matchesNeighbor_rotated_edge_rule (p q : PlayedCard) (a b c ci cj : Nat)
    (hmem : (a, b, c) ∈ NEIGHBORMAP) (hpa : p.position = a) (hqb : q.position = b)
    (hpc : p.card = some ci) (hqc : q.card = some cj) :
    matchesNeighbor p q = Except.ok true ↔
      (edgeFamily (cardEdge ci ((c + p.rot) % EDGES_IN_CARD)) =
        edgeFamily (cardEdge cj ((c + q.rot) % EDGES_IN_CARD)) ∧
       edgeOrientation (cardEdge ci ((c + p.rot) % EDGES_IN_CARD)) ≠
        edgeOrientation (cardEdge cj ((c + q.rot) % EDGES_IN_CARD))) := by
  rw [matchesNeighbor_eval p q a b c ci cj hmem hpa hqb hpc hqc]
  simp [Bool.and_eq_true, beq_iff_eq, bne_iff_ne]

/-- Witness for C2 at a concrete input: P1 at position 0 (rotation 0) against
P2 at position 1 (rotation 1), common slot 0. -/
theorem matchesNeighbor_rotated_edge_rule_witness :
    matchesNeighbor (PlayedCard.mk 0 0 (some 0)) (PlayedCard.mk 1 1 (some 1)) = Except.ok true ↔
      (edgeFamily (cardEdge 0 ((0 + 0) % EDGES_IN_CARD)) =
        edgeFamily (cardEdge 1 ((0 + 1) % EDGES_IN_CARD)) ∧
       edgeOrientation (cardEdge 0 ((0 + 0) % EDGES_IN_CARD)) ≠
        edgeOrientation (cardEdge 1 ((0 + 1) % EDGES_IN_CARD))) :=
  matchesNeighbor_rotated_edge_rule (PlayedCard.mk 0 0 (some 0)) (PlayedCard.mk 1 1 (some 1))
    0 1 0 0 1 (by decide) rfl rfl rfl rfl

/-- Counterexample to claim C3 as stated: with `p` non-empty and `q` empty at
adjacent positions, `matchesNeighbor p q` does not return false — the C code
dereferences `q`'s NULL card pointer (it only null-checks `p`). -/
theorem matchesNeighbor_empty_other_cx :
    (PlayedCard.mk 0 1 none).card = none ∧
    matchesNeighbor (PlayedCard.mk 0 0 (some 0)) (PlayedCard.mk 0 1 none) =
      Except.error Fatal.nullCard ∧
    matchesNeighbor (PlayedCard.mk 0 0 (some 0)) (PlayedCard.mk 0 1 none) ≠
      Except.ok false := by decide

/-- Claim C3 amended: `matchesNeighbor p q` returns false immediately when the
receiver `p` is empty; when `p` is non-empty but `q` is empty (and the
positions are adjacent, so the common-edge lookup succeeds), it does not
return false but dereferences the missing card. -/
theorem matchesNeighbor_empty_receiver :
    (∀ p q : PlayedCard, p.card = none → matchesNeighbor p q = Except.ok false) ∧
    (∀ (p q : PlayedCard) (ci c : Nat), p.card = some ci → q.card = none →
      getCommonEdge p q = Except.ok c →
      matchesNeighbor p q = Except.error Fatal.nullCard) := by
  constructor
  · intro p q h
    unfold matchesNeighbor
    rw [h]
  · intro p q ci c hpc hqc hce
    unfold matchesNeighbor
    rw [hpc, hce, hqc]

/-- Witness for the amended C3 at concrete inputs. -/
theorem matchesNeighbor_empty_receiver_witness :
    matchesNeighbor (PlayedCard.mk 0 0 none) (PlayedCard.mk 0 1 (some 1)) = Except.ok false ∧
    matchesNeighbor (PlayedCard.mk 0 0 (some 0)) (PlayedCard.mk 0 1 none) =
      Except.error Fatal.nullCard :=
  ⟨matchesNeighbor_empty_receiver.1 (PlayedCard.mk 0 0 none) (PlayedCard.mk 0 1 (some 1)) rfl,
   matchesNeighbor_empty_receiver.2 (PlayedCard.mk 0 0 (some 0)) (PlayedCard.mk 0 1 none)
     0 0 rfl rfl (by decide)⟩

/-- The topology table never contains both an ordered pair and its reverse. -/
theorem no_reversed_entry :
    ∀ e ∈ NEIGHBORMAP, ∀ x ∈ NEIGHBORMAP, ¬(x.1 = e.2.1 ∧ x.2.1 = e.1) := by decide

/-- Counterexample to claim C4 as stated: P1 at position 0 matches P2 at
position 1, but `matchesNeighbor` evaluated from `(q, p)` hits the fatal
`NotNeighbors` exit instead of returning true, because the table stores only
the ordered pair (0, 1). -/
theorem matchesNeighbor_swap_cx :
    matchesNeighbor (PlayedCard.mk 0 0 (some 0)) (PlayedCard.mk 1 1 (some 1)) = Except.ok true ∧
    matchesNeighbor (PlayedCard.mk 1 1 (some 1)) (PlayedCard.mk 0 0 (some 0)) =
      Except.error Fatal.notNeighbors := by decide

/-- Claim C4 amended: the edge-matching rule itself is symmetric — if
`matchesNeighbor p q` returns true then the comparison taken from `q`'s side
(`q`'s effective edge label against `p`'s) also holds — but the function
`matchesNeighbor` invoked with its arguments swapped terminates with
`NotNeighbors`, since the topology table stores only ordered (lower, higher)
pairs. -/
theorem matchesNeighbor_rule_symmetric (p q : PlayedCard) (a b c ci cj : Nat)
    (hmem : (a, b, c) ∈ NEIGHBORMAP) (hpa : p.position = a) (hqb : q.position = b)
    (hpc : p.card = some ci) (hqc : q.card = some cj)
    (htrue : matchesNeighbor p q = Except.ok true) :
    (edgeFamily (cardEdge cj ((c + q.rot) % EDGES_IN_CARD)) =
       edgeFamily (cardEdge ci ((c + p.rot) % EDGES_IN_CARD)) ∧
     edgeOrientation (cardEdge cj ((c + q.rot) % EDGES_IN_CARD)) ≠
       edgeOrientation (cardEdge ci ((c + p.rot) % EDGES_IN_CARD))) ∧
    matchesNeighbor q p = Except.error Fatal.notNeighbors := by
  have heval := matchesNeighbor_eval p q a b c ci cj hmem hpa hqb hpc hqc
  rw [heval] at htrue
  simp only [Except.ok.injEq, Bool.and_eq_true, beq_iff_eq, bne_iff_ne] at htrue
  refine ⟨⟨htrue.1.symm, fun hh => htrue.2 hh.symm⟩, ?_⟩
  unfold matchesNeighbor
  rw [hqc]
  have hrev : getCommonEdge q p = Except.error Fatal.notNeighbors := by
    apply getCommonEdge_notNeighbors
    intro c2 hc2
    have := no_reversed_entry (a, b, c) hmem (q.position, p.position, c2) hc2
    exact this ⟨by rw [hqb], by rw [hpa]⟩
  rw [hrev]

/-- Witness for the amended C4 at the concrete counterexample input. -/
theorem matchesNeighbor_rule_symmetric_witness :
    (edgeFamily (cardEdge 1 ((0 + 1) % EDGES_IN_CARD)) =
       edgeFamily (cardEdge 0 ((0 + 0) % EDGES_IN_CARD)) ∧
     edgeOrientation (cardEdge 1 ((0 + 1) % EDGES_IN_CARD)) ≠
       edgeOrientation (cardEdge 0 ((0 + 0) % EDGES_IN_CARD))) ∧
    matchesNeighbor (PlayedCard.mk 1 1 (some 1)) (PlayedCard.mk 0 0 (some 0)) =
      Except.error Fatal.notNeighbors :=
  matchesNeighbor_rule_symmetric (PlayedCard.mk 0 0 (some 0)) (PlayedCard.mk 1 1 (some 1))
    0 1 0 0 1 (by decide) rfl rfl rfl rfl (by decide)

/-- Claim C5: for every pair of positions in the topology table,
`getCommonEdge` is defined and returns the table's slot index; for any queried
pair not present in the table it signals `NotNeighbors` (in the C code this
prints an error and calls `exit(0)`, terminating the process; in the model the
error value propagates outward and aborts the run). -/
theorem getCommonEdge_total_on_table :
    (∀ (a b c : Nat) (p q : PlayedCard), (a, b, c) ∈ NEIGHBORMAP →
      p.position = a → q.position = b → getCommonEdge p q = Except.ok c) ∧
    (∀ p q : PlayedCard, (∀ c, (p.position, q.position, c) ∉ NEIGHBORMAP) →
      getCommonEdge p q = Except.error Fatal.notNeighbors) :=
  ⟨fun a b c p q hmem hpa hqb => getCommonEdge_ok p q a b c hmem hpa hqb,
   fun p q h => getCommonEdge_notNeighbors p q h⟩

/-- Witness for C5: the table entry (0, 1, 0) and the non-adjacent pair
(3, 0). -/
theorem getCommonEdge_total_on_table_witness :
    getCommonEdge (PlayedCard.mk 0 0 (some 0)) (PlayedCard.mk 0 1 (some 1)) = Except.ok 0 ∧
    getCommonEdge (PlayedCard.mk 0 3 (some 0)) (PlayedCard.mk 0 0 (some 1)) =
      Except.error Fatal.notNeighbors :=
  ⟨getCommonEdge_total_on_table.1 0 1 0 (PlayedCard.mk 0 0 (some 0)) (PlayedCard.mk 0 1 (some 1))
      (by decide) rfl rfl,
   getCommonEdge_total_on_table.2 (PlayedCard.mk 0 3 (some 0)) (PlayedCard.mk 0 0 (some 1))
      (by intro c hc; simp [NEIGHBORMAP, Prod.ext_iff] at hc)⟩

/-- Claim C7: `rotate` increments the rotation and reports success exactly
when the rotation is below 2, and otherwise reports exhaustion without
mutating; starting from rotation 0, two calls succeed and the third returns
exhausted with the rotation left at 2. -/
theorem rotate_spec (p : PlayedCard) :
    (p.rot < 2 → rotate p = (true, { p with rot := p.rot + 1 })) ∧
    (2 ≤ p.rot → rotate p = (false, p)) ∧
    (p.rot = 0 →
      rotate p = (true, { p with rot := 1 }) ∧
      rotate { p with rot := 1 } = (true, { p with rot := 2 }) ∧
      rotate { p with rot := 2 } = (false, { p with rot := 2 })) := by
  refine ⟨fun h => ?_, fun h => ?_, fun h => ⟨?_, ?_, ?_⟩⟩
  · unfold rotate
    rw [if_neg (by omega)]
  · unfold rotate
    rw [if_pos h]
  · unfold rotate
    rw [if_neg (by omega), h]
  · unfold rotate
    rw [if_neg (show ¬((2 : Nat) ≤ 1) by decide)]
  · unfold rotate
    rw [if_pos (show (2 : Nat) ≤ 2 by decide)]

/-- Witness for C7 at a concrete placement. -/
theorem rotate_spec_witness :
    rotate (PlayedCard.mk 0 5 (some 3)) = (true, PlayedCard.mk 1 5 (some 3)) ∧
    rotate (PlayedCard.mk 2 5 (some 3)) = (false, PlayedCard.mk 2 5 (some 3)) :=
  ⟨(rotate_spec (PlayedCard.mk 0 5 (some 3))).1 (by decide),
   (rotate_spec (PlayedCard.mk 2 5 (some 3))).2.1 (by decide)⟩

/-- The empty board satisfies the board invariant. -/
theorem Inv_emptyState : Inv emptyState := by decide

/-- From an invariant state with nothing placed, `next` has no successor (the
C code would dereference NULL here; the driver never does this). -/
theorem next_zero_none (s : GameState) (h : Inv s) (hz : s.nextOnBoard = 0) :
    next s = none := by
  obtain ⟨hlen, hn9, hsome, hok, hdist⟩ := h
  unfold next
  rw [replicate_inv_eq s ⟨hlen, hn9, hsome, hok, hdist⟩]
  dsimp only
  have h0 : s.cardsOnBoard.getD (s.nextOnBoard - 1) none = none := by
    rw [hz]
    have hs0 := hsome 0 (by decide)
    cases hgd : s.cardsOnBoard.getD 0 none with
    | none => rfl
    | some pc =>
      rw [hgd] at hs0
      simp at hs0
      omega
  rw [h0]

/-- Evaluating the fuel bound at a `solve` argument. -/
theorem stepBound_inl_eq (s : GameState) :
    stepBound (Sum.inl s) = (CARDS_IN_DECK + 1 - s.nextOnBoard) * 100 := rfl

/-- Evaluating the fuel bound at a loop argument. -/
theorem stepBound_inr_some_eq (c : GameState) :
    stepBound (Sum.inr (some c)) =
      (CARDS_IN_DECK + 1 - c.nextOnBoard) * 100 + chainM c + 1 := rfl

/-- Every reachable state satisfies the board invariant and the cursor
invariant. -/
theorem Reachable_inv_dinv : ∀ s, Reachable s → Inv s ∧ DInv s := by
  intro s h
  induction h with
  | root => exact ⟨Inv_emptyState, Or.inl rfl⟩
  | @viaFirst u t hr hf ih =>
    obtain ⟨h1, h2, h3, h4⟩ := first_some_pres u t ih.1 hf
    exact ⟨h1, h2⟩
  | @viaNext u t hr hnx ih =>
    rcases Nat.eq_zero_or_pos u.nextOnBoard with hz | hp
    · rw [next_zero_none u ih.1 hz] at hnx
      cases hnx
    · obtain ⟨h1, h2, h3, h4⟩ := next_some_pres u t ih.1 ih.2 hp hnx
      exact ⟨h1, h2⟩

/-- Claim C10: in every board state reachable from the empty board via
`first` and `next`, the filled positions form a contiguous prefix (slot `i`
is filled iff `i < nextOnBoard`), the placement stored at index `i` has
position `i`, the placed cards are pairwise distinct by identity, and the
state copy `replicate` (which stops copying at the first empty slot, hence
depends on the contiguous-prefix property) reproduces the board exactly. -/
theorem reachable_board_invariant (s : GameState) (h : Reachable s) :
    s.cardsOnBoard.length = CARDS_IN_DECK ∧
    s.nextOnBoard ≤ CARDS_IN_DECK ∧
    (∀ i < CARDS_IN_DECK, ((s.cardsOnBoard.getD i none).isSome = true ↔ i < s.nextOnBoard)) ∧
    (∀ i < CARDS_IN_DECK, ∀ pc : PlayedCard,
      s.cardsOnBoard.getD i none = some pc → pc.position = i) ∧
    (∀ i < CARDS_IN_DECK, ∀ j < CARDS_IN_DECK, i < j → ∀ pci pcj : PlayedCard,
      s.cardsOnBoard.getD i none = some pci → s.cardsOnBoard.getD j none = some pcj →
      pci.card ≠ pcj.card) ∧
    replicateBoard s.cardsOnBoard = s.cardsOnBoard := by
  obtain ⟨hinv, -⟩ := Reachable_inv_dinv s h
  have hrep : replicateBoard s.cardsOnBoard = s.cardsOnBoard :=
    congrArg GameState.cardsOnBoard (replicate_inv_eq s hinv)
  obtain ⟨hlen, hn9, hsome, hok, hdist⟩ := hinv
  refine ⟨hlen, hn9, hsome, ?_, ?_, hrep⟩
  · intro i hi pc hgd
    have := hok i hi
    rw [hgd] at this
    exact (slotOK_some i pc this).1
  · intro i hi j hj hij pci pcj hgdi hgdj
    rcases hdist i hi j hj hij with hnone | hne
    · rw [hgdj] at hnone
      cases hnone
    · rw [hgdi, hgdj] at hne
      intro hcon
      exact hne hcon

/-- Witness for C10 at the empty board. -/
theorem reachable_board_invariant_witness :
    emptyState.cardsOnBoard.length = CARDS_IN_DECK ∧
    emptyState.nextOnBoard ≤ CARDS_IN_DECK ∧
    (∀ i < CARDS_IN_DECK,
      ((emptyState.cardsOnBoard.getD i none).isSome = true ↔ i < emptyState.nextOnBoard)) ∧
    (∀ i < CARDS_IN_DECK, ∀ pc : PlayedCard,
      emptyState.cardsOnBoard.getD i none = some pc → pc.position = i) ∧
    (∀ i < CARDS_IN_DECK, ∀ j < CARDS_IN_DECK, i < j → ∀ pci pcj : PlayedCard,
      emptyState.cardsOnBoard.getD i none = some pci →
      emptyState.cardsOnBoard.getD j none = some pcj →
      pci.card ≠ pcj.card) ∧
    replicateBoard emptyState.cardsOnBoard = emptyState.cardsOnBoard :=
  reachable_board_invariant emptyState Reachable.root

/-- Claim C8: the transition operations do not mutate their receiver.  In the
C code `first` and `next` write only through the freshly allocated copy made
by `replicate` (visible in the translation: both read the receiver solely
through `replicate`), so receiver immutability amounts to the copy being a
complete, structurally independent reproduction of the receiver's value; on
every reachable state the copy equals the original, every field included. -/
theorem transition_no_mutation (s : GameState) (h : Reachable s) :
    replicate s = s ∧
    (replicate s).nextOnBoard = s.nextOnBoard ∧
    (replicate s).topOfTheDeck = s.topOfTheDeck ∧
    (replicate s).cardsOnBoard = s.cardsOnBoard := by
  have hrep := replicate_inv_eq s (Reachable_inv_dinv s h).1
  exact ⟨hrep, by rw [hrep], by rw [hrep], by rw [hrep]⟩

/-- Witness for C8 at the empty board. -/
theorem transition_no_mutation_witness :
    replicate emptyState = emptyState ∧
    (replicate emptyState).nextOnBoard = emptyState.nextOnBoard ∧
    (replicate emptyState).topOfTheDeck = emptyState.topOfTheDeck ∧
    (replicate emptyState).cardsOnBoard = emptyState.cardsOnBoard :=
  transition_no_mutation emptyState Reachable.root

/-- The chain measure is globally bounded by 29. -/
theorem chainM_le (c : GameState) : chainM c ≤ 29 := by
  unfold chainM
  have h9 : CARDS_IN_DECK = 9 := rfl
  omega

/-- Unfolding `stepF` at a `solve` call. -/
theorem stepF_inl (k : Nat) (g : GameState) :
    stepF (k + 1) (.inl g) =
      match isSolved g true with
      | .error f => .error f
      | .ok false => .ok []
      | .ok true =>
        match isSolved g false with
        | .error f => .error f
        | .ok full =>
          match stepF k (.inr (first g)) with
          | .error f => .error f
          | .ok rest => .ok ((if full then [outLine g] else []) ++ rest) := rfl

/-- The loop on an exhausted chain yields nothing, whatever the fuel. -/
theorem stepF_inr_none (k : Nat) : stepF k (.inr none) = .ok [] := by
  cases k <;> rfl

/-- Unfolding `stepF` at a loop iteration. -/
theorem stepF_inr_some (k : Nat) (st : GameState) :
    stepF (k + 1) (.inr (some st)) =
      match stepF k (.inl st) with
      | .error f => .error f
      | .ok here =>
        match stepF k (.inr (next st)) with
        | .error f => .error f
        | .ok more => .ok (here ++ more) := rfl

/-- Fuel stability: above `stepBound`, the result of the fuelled search does
not depend on the fuel.  This is the termination statement for `solve`: the
recursion depth is bounded by the 9 board positions and each sibling chain by
the chain measure. -/
theorem stepF_stable : ∀ (m : Nat) (x : GameState ⊕ Option GameState) (n : Nat),
    stepOK x → stepBound x ≤ m → stepBound x ≤ n → stepF m x = stepF n x := by
  intro m
  induction m using Nat.strong_induction_on with
  | _ m ih =>
    intro x n hok hbm hbn
    cases x with
    | inr o =>
      cases o with
      | none => rw [stepF_inr_none, stepF_inr_none]
      | some c =>
        obtain ⟨hInv, hDInv, hn1⟩ := hok
        have hb1 : 1 ≤ stepBound (.inr (some c)) := by
          rw [stepBound_inr_some_eq]
          omega
        obtain ⟨m', rfl⟩ : ∃ m', m = m' + 1 := ⟨m - 1, by omega⟩
        obtain ⟨n', rfl⟩ : ∃ n', n = n' + 1 := ⟨n - 1, by omega⟩
        rw [stepF_inr_some, stepF_inr_some]
        have hbm' : stepBound (.inr (some c)) ≤ m' + 1 := hbm
        have hbn' : stepBound (.inr (some c)) ≤ n' + 1 := hbn
        rw [stepBound_inr_some_eq] at hbm' hbn'
        have hrec1 : stepF m' (.inl c) = stepF n' (.inl c) := by
          apply ih m' (by omega) (.inl c) n' hInv
          · rw [stepBound_inl_eq]
            omega
          · rw [stepBound_inl_eq]
            omega
        have hrec2 : stepF m' (.inr (next c)) = stepF n' (.inr (next c)) := by
          cases hnx : next c with
          | none => rw [stepF_inr_none, stepF_inr_none]
          | some c' =>
            obtain ⟨hI2, hD2, hn2, hcm⟩ := next_some_pres c c' hInv hDInv hn1 hnx
            apply ih m' (by omega) (.inr (some c')) n' ⟨hI2, hD2, by omega⟩
            · rw [stepBound_inr_some_eq, hn2]
              omega
            · rw [stepBound_inr_some_eq, hn2]
              omega
        rw [hrec1, hrec2]
    | inl s =>
      have hs : Inv s := hok
      have hn9 : s.nextOnBoard ≤ CARDS_IN_DECK := hs.2.1
      have h9 : CARDS_IN_DECK = 9 := rfl
      have hb1 : 1 ≤ stepBound (.inl s) := by
        rw [stepBound_inl_eq]
        omega
      obtain ⟨m', rfl⟩ : ∃ m', m = m' + 1 := ⟨m - 1, by omega⟩
      obtain ⟨n', rfl⟩ : ∃ n', n = n' + 1 := ⟨n - 1, by omega⟩
      rw [stepF_inl, stepF_inl]
      have hbm' : stepBound (.inl s) ≤ m' + 1 := hbm
      have hbn' : stepBound (.inl s) ≤ n' + 1 := hbn
      rw [stepBound_inl_eq] at hbm' hbn'
      have hrec : stepF m' (.inr (first s)) = stepF n' (.inr (first s)) := by
        cases hf : first s with
        | none => rw [stepF_inr_none, stepF_inr_none]
        | some c0 =>
          obtain ⟨hI0, hD0, hnb0, hlt0⟩ := first_some_pres s c0 hs hf
          have hcm0 := chainM_le c0
          apply ih m' (by omega) (.inr (some c0)) n' ⟨hI0, hD0, by omega⟩
          · rw [stepBound_inr_some_eq, hnb0]
            omega
          · rw [stepBound_inr_some_eq, hnb0]
            omega
      rw [hrec]

/-- Every neighbor-map entry names two valid board positions. -/
theorem NEIGHBORMAP_positions :
    ∀ x ∈ NEIGHBORMAP, x.1 < CARDS_IN_DECK ∧ x.2.1 < CARDS_IN_DECK := by decide

/-- The definitional unfolding of the consistency check on one entry. -/
theorem isSolvedAux_cons (s : GameState) (pb : Bool) (e : Nat × Nat × Nat)
    (rest : List (Nat × Nat × Nat)) :
    isSolvedAux s pb (e :: rest) =
      match s.cardsOnBoard.getD e.1 none, s.cardsOnBoard.getD e.2.1 none with
      | some c1, some c2 =>
        match matchesNeighbor c1 c2 with
        | .error f => .error f
        | .ok true => isSolvedAux s pb rest
        | .ok false => .ok false
      | _, _ => if pb then isSolvedAux s pb rest else .ok false := rfl

/-- On an invariant state the consistency check never reaches a fatal path:
filled slots hold placements whose positions match their indices and whose
cards are present, so every `matchesNeighbor` call is well-posed. -/
theorem isSolvedAux_ok (s : GameState) (pb : Bool) :
    ∀ L, (∀ e ∈ L, e ∈ NEIGHBORMAP) → Inv s → ∃ bl, isSolvedAux s pb L = Except.ok bl := by
  intro L
  induction L with
  | nil => intro _ _; exact ⟨true, rfl⟩
  | cons e rest ih =>
    intro hmem hinv
    have hemem : e ∈ NEIGHBORMAP := hmem e (List.mem_cons_self e rest)
    have hrest : ∀ x ∈ rest, x ∈ NEIGHBORMAP := fun x hx => hmem x (List.mem_cons_of_mem e hx)
    have hab := NEIGHBORMAP_positions e hemem
    have hihr := ih hrest hinv
    obtain ⟨hlen, hn9, hsome, hok, hdist⟩ := hinv
    rw [isSolvedAux_cons]
    cases h1 : s.cardsOnBoard.getD e.1 none with
    | none =>
      cases h2 : s.cardsOnBoard.getD e.2.1 none with
      | none =>
        show ∃ bl, (if pb then isSolvedAux s pb rest else Except.ok false) = Except.ok bl
        cases pb
        · exact ⟨false, rfl⟩
        · exact hihr
      | some c2 =>
        show ∃ bl, (if pb then isSolvedAux s pb rest else Except.ok false) = Except.ok bl
        cases pb
        · exact ⟨false, rfl⟩
        · exact hihr
    | some c1 =>
      cases h2 : s.cardsOnBoard.getD e.2.1 none with
      | none =>
        show ∃ bl, (if pb then isSolvedAux s pb rest else Except.ok false) = Except.ok bl
        cases pb
        · exact ⟨false, rfl⟩
        · exact hihr
      | some c2 =>
        show ∃ bl, (match matchesNeighbor c1 c2 with
          | Except.error f => Except.error f
          | Except.ok true => isSolvedAux s pb rest
          | Except.ok false => Except.ok false) = Except.ok bl
        have hok1 := hok e.1 hab.1
        rw [h1] at hok1
        obtain ⟨hpos1, -, ci, hci, -⟩ := slotOK_some e.1 c1 hok1
        have hok2 := hok e.2.1 hab.2
        rw [h2] at hok2
        obtain ⟨hpos2, -, cj, hcj, -⟩ := slotOK_some e.2.1 c2 hok2
        have hmn := matchesNeighbor_eval c1 c2 e.1 e.2.1 e.2.2 ci cj hemem hpos1 hpos2 hci hcj
        rw [hmn]
        cases (edgeFamily (cardEdge ci ((e.2.2 + c1.rot) % EDGES_IN_CARD)) ==
            edgeFamily (cardEdge cj ((e.2.2 + c2.rot) % EDGES_IN_CARD)) &&
          edgeOrientation (cardEdge ci ((e.2.2 + c1.rot) % EDGES_IN_CARD)) !=
            edgeOrientation (cardEdge cj ((e.2.2 + c2.rot) % EDGES_IN_CARD)))
        · exact ⟨false, rfl⟩
        · exact hihr

/-- `isSolved` on an invariant state returns a value rather than a fatal
error. -/
theorem isSolved_ok (s : GameState) (pb : Bool) (hinv : Inv s) :
    ∃ bl, isSolved s pb = Except.ok bl :=
  isSolvedAux_ok s pb NEIGHBORMAP (fun _ hx => hx) hinv

/-- A successful full (`partial = false`) check requires both slots of every
checked entry to be filled. -/
theorem isSolvedAux_false_filled (s : GameState) :
    ∀ L, isSolvedAux s false L = Except.ok true →
      ∀ e ∈ L, (s.cardsOnBoard.getD e.1 none).isSome = true ∧
        (s.cardsOnBoard.getD e.2.1 none).isSome = true := by
  intro L
  induction L with
  | nil => intro _ e he; cases he
  | cons e rest ih =>
    intro h e2 he2
    rw [isSolvedAux_cons] at h
    cases h1 : s.cardsOnBoard.getD e.1 none with
    | none =>
      rw [h1] at h
      cases h2 : s.cardsOnBoard.getD e.2.1 none with
      | none =>
        rw [h2] at h
        have h3 : (Except.ok false : Except Fatal Bool) = Except.ok true := h
        simp at h3
      | some c2 =>
        rw [h2] at h
        have h3 : (Except.ok false : Except Fatal Bool) = Except.ok true := h
        simp at h3
    | some c1 =>
      rw [h1] at h
      cases h2 : s.cardsOnBoard.getD e.2.1 none with
      | none =>
        rw [h2] at h
        have h3 : (Except.ok false : Except Fatal Bool) = Except.ok true := h
        simp at h3
      | some c2 =>
        rw [h2] at h
        have h3 : (match matchesNeighbor c1 c2 with
          | Except.error f => Except.error f
          | Except.ok true => isSolvedAux s false rest
          | Except.ok false => Except.ok false) = Except.ok true := h
        cases hmn : matchesNeighbor c1 c2 with
        | error f =>
          rw [hmn] at h3
          cases h3
        | ok bv =>
          rw [hmn] at h3
          cases bv
          · have h4 : (Except.ok false : Except Fatal Bool) = Except.ok true := h3
            simp at h4
          · have h4 : isSolvedAux s false rest = Except.ok true := h3
            rcases List.mem_cons.mp he2 with rfl | hmem
            · exact ⟨by rw [h1]; rfl, by rw [h2]; rfl⟩
            · exact ih h4 e2 hmem

/-- Every board position occurs in some neighbor-map entry. -/
theorem NEIGHBORMAP_covers :
    ∀ i < CARDS_IN_DECK, ∃ e ∈ NEIGHBORMAP, e.1 = i ∨ e.2.1 = i := by decide

/-- A board passing the full consistency check has all 9 positions filled. -/
theorem isSolved_false_filled (s : GameState) (h : isSolved s false = Except.ok true) :
    ∀ i < CARDS_IN_DECK, (s.cardsOnBoard.getD i none).isSome = true := by
  intro i hi
  obtain ⟨e, he, hcase⟩ := NEIGHBORMAP_covers i hi
  obtain ⟨ha, hb⟩ := isSolvedAux_false_filled s NEIGHBORMAP h e he
  cases hcase with
  | inl h1 => rw [← h1]; exact ha
  | inr h2 => rw [← h2]; exact hb

/-- The loop argument built from `first` satisfies the chain conditions. -/
theorem stepOK_first (s : GameState) (h : Inv s) : stepOK (.inr (first s)) := by
  cases hf : first s with
  | none => exact trivial
  | some c0 =>
    obtain ⟨hI0, hD0, hnb0, -⟩ := first_some_pres s c0 h hf
    exact ⟨hI0, hD0, by omega⟩

/-- The loop argument built from `next` satisfies the chain conditions. -/
theorem stepOK_next (c : GameState) (h1 : Inv c) (h2 : DInv c)
    (h3 : 1 ≤ c.nextOnBoard) : stepOK (.inr (next c)) := by
  cases hnx : next c with
  | none => exact trivial
  | some c2 =>
    obtain ⟨hI2, hD2, hn2, -⟩ := next_some_pres c c2 h1 h2 h3 hnx
    exact ⟨hI2, hD2, by omega⟩

/-- On well-formed arguments the fuelled search never reaches a fatal path. -/
theorem stepF_ok : ∀ (n : Nat) (x : GameState ⊕ Option GameState), stepOK x →
    ∃ ls, stepF n x = Except.ok ls := by
  intro n
  induction n with
  | zero => intro x _; exact ⟨[], rfl⟩
  | succ n ih =>
    intro x hok
    cases x with
    | inr o =>
      cases o with
      | none => exact ⟨[], stepF_inr_none _⟩
      | some c =>
        obtain ⟨hInv, hDInv, hn1⟩ := hok
        rw [stepF_inr_some]
        obtain ⟨here, hh⟩ := ih (.inl c) hInv
        rw [hh]
        obtain ⟨more, hm⟩ := ih (.inr (next c)) (stepOK_next c hInv hDInv hn1)
        rw [hm]
        exact ⟨here ++ more, rfl⟩
    | inl s =>
      have hInv : Inv s := hok
      rw [stepF_inl]
      obtain ⟨b1, h1⟩ := isSolved_ok s true hInv
      rw [h1]
      cases b1
      · exact ⟨[], rfl⟩
      · obtain ⟨b2, h2⟩ := isSolved_ok s false hInv
        rw [h2]
        obtain ⟨rest, hr⟩ := ih (.inr (first s)) (stepOK_first s hInv)
        rw [hr]
        exact ⟨(if b2 then [outLine s] else []) ++ rest, rfl⟩

/-- Provenance of the emitted lines: every line the fuelled search outputs is
the `output` line of some invariant board that passes the full consistency
check. -/
theorem stepF_lines : ∀ (n : Nat) (x : GameState ⊕ Option GameState), stepOK x →
    ∀ lines, stepF n x = Except.ok lines →
    ∀ l ∈ lines, ∃ b, Inv b ∧ isSolved b false = Except.ok true ∧ l = outLine b := by
  intro n
  induction n with
  | zero =>
    intro x _ lines heq l hl
    have h0 : ([] : List String) = lines := Except.ok.inj heq
    rw [← h0] at hl
    cases hl
  | succ n ih =>
    intro x hok lines heq l hl
    cases x with
    | inr o =>
      cases o with
      | none =>
        rw [stepF_inr_none] at heq
        have h0 : ([] : List String) = lines := Except.ok.inj heq
        rw [← h0] at hl
        cases hl
      | some c =>
        obtain ⟨hInv, hDInv, hn1⟩ := hok
        rw [stepF_inr_some] at heq
        cases hh : stepF n (.inl c) with
        | error f =>
          rw [hh] at heq
          cases heq
        | ok here =>
          rw [hh] at heq
          cases hm : stepF n (.inr (next c)) with
          | error f =>
            rw [hm] at heq
            cases heq
          | ok more =>
            rw [hm] at heq
            have heq2 : here ++ more = lines := Except.ok.inj heq
            rw [← heq2] at hl
            rcases List.mem_append.mp hl with hcase | hcase
            · exact ih (.inl c) hInv here hh l hcase
            · exact ih (.inr (next c)) (stepOK_next c hInv hDInv hn1) more hm l hcase
    | inl s =>
      have hInv : Inv s := hok
      rw [stepF_inl] at heq
      cases h1 : isSolved s true with
      | error f =>
        rw [h1] at heq
        cases heq
      | ok b1 =>
        rw [h1] at heq
        cases b1
        · have h0 : ([] : List String) = lines := Except.ok.inj heq
          rw [← h0] at hl
          cases hl
        · cases h2 : isSolved s false with
          | error f =>
            rw [h2] at heq
            cases heq
          | ok b2 =>
            rw [h2] at heq
            cases hr : stepF n (.inr (first s)) with
            | error f =>
              rw [hr] at heq
              cases heq
            | ok rest =>
              rw [hr] at heq
              have heq2 : (if b2 then [outLine s] else []) ++ rest = lines := Except.ok.inj heq
              rw [← heq2] at hl
              rcases List.mem_append.mp hl with hcase | hcase
              · cases b2
                · cases hcase
                · rcases List.mem_cons.mp hcase with rfl | hnil
                  · exact ⟨s, hInv, h2, rfl⟩
                  · cases hnil
              · exact ih (.inr (first s)) (stepOK_first s hInv) rest hr l hcase

/-- The print order is a permutation of the 9 board positions. -/
theorem PRINTORDER_perm : PRINTORDER.Perm (List.range CARDS_IN_DECK) := by decide

/-- Every entry of the print order is a valid board position. -/
theorem PRINTORDER_lt : ∀ p ∈ PRINTORDER, p < CARDS_IN_DECK := by decide

/-- A filled slot of an invariant board holds a valid card index. -/
theorem filled_card (b : GameState) (hinv : Inv b) (pos : Nat) (hpos : pos < CARDS_IN_DECK)
    (hf : (b.cardsOnBoard.getD pos none).isSome = true) :
    ∃ pc ci, b.cardsOnBoard.getD pos none = some pc ∧ pc.card = some ci ∧ ci < CARDS_IN_DECK := by
  obtain ⟨-, -, -, hok, -⟩ := hinv
  cases hgd : b.cardsOnBoard.getD pos none with
  | none =>
    rw [hgd] at hf
    cases hf
  | some pc =>
    have h2 := hok pos hpos
    rw [hgd] at h2
    obtain ⟨-, -, ci, hci, hci9⟩ := slotOK_some pos pc h2
    exact ⟨pc, ci, rfl, hci, hci9⟩

/-- The solution line of a fully filled invariant board is the bracketed,
comma-separated list of the 9 card names in print order, and those names are a
permutation of the 9 catalog names (each of which is 2 characters long). -/
theorem outLine_names (b : GameState) (hinv : Inv b)
    (hfull : ∀ i < CARDS_IN_DECK, (b.cardsOnBoard.getD i none).isSome = true) :
    ∃ names : List String,
      names = PRINTORDER.map (fun pos =>
        match b.cardsOnBoard.getD pos none with
        | some pc => (Deck.getD (pc.card.getD 0) ⟨"", []⟩).name
        | none => "") ∧
      outLine b = "[" ++ String.intercalate "," names ++ "]" ∧
      names.Perm deckNames ∧ (∀ nm ∈ names, nm.length = 2) := by
  have hpoint : ∀ pos ∈ PRINTORDER,
      (match b.cardsOnBoard.getD pos none with
       | some pc => (Deck.getD (pc.card.getD 0) ⟨"", []⟩).name
       | none => "") =
      (fun ci => (Deck.getD ci ⟨"", []⟩).name)
        (((b.cardsOnBoard.getD pos none).bind PlayedCard.card).getD 0) := by
    intro pos hpos
    obtain ⟨pc, ci, hgd, hci, -⟩ :=
      filled_card b hinv pos (PRINTORDER_lt pos hpos) (hfull pos (PRINTORDER_lt pos hpos))
    rw [hgd]
    rfl
  have hmapeq : PRINTORDER.map (fun pos =>
      match b.cardsOnBoard.getD pos none with
      | some pc => (Deck.getD (pc.card.getD 0) ⟨"", []⟩).name
      | none => "") =
      (PRINTORDER.map (fun pos =>
        ((b.cardsOnBoard.getD pos none).bind PlayedCard.card).getD 0)).map
        (fun ci => (Deck.getD ci ⟨"", []⟩).name) := by
    rw [List.map_map]
    exact List.map_congr_left hpoint
  have hinj : ∀ x ∈ List.range CARDS_IN_DECK, ∀ y ∈ List.range CARDS_IN_DECK,
      ((b.cardsOnBoard.getD x none).bind PlayedCard.card).getD 0 =
        ((b.cardsOnBoard.getD y none).bind PlayedCard.card).getD 0 → x = y := by
    intro x hx y hy hxy
    rw [List.mem_range] at hx hy
    obtain ⟨pcx, cix, hgdx, hcix, -⟩ := filled_card b hinv x hx (hfull x hx)
    obtain ⟨pcy, ciy, hgdy, hciy, -⟩ := filled_card b hinv y hy (hfull y hy)
    rw [hgdx, hgdy] at hxy
    have hxy2 : pcx.card.getD 0 = pcy.card.getD 0 := hxy
    rw [hcix, hciy] at hxy2
    simp at hxy2
    rcases Nat.lt_trichotomy x y with hlt | heq | hgt
    · exfalso
      rcases hinv.2.2.2.2 x hx y hy hlt with hnone | hne
      · rw [hgdy] at hnone
        cases hnone
      · rw [hgdx, hgdy] at hne
        have hne2 : pcx.card ≠ pcy.card := hne
        exact hne2 (by rw [hcix, hciy, hxy2])
    · exact heq
    · exfalso
      rcases hinv.2.2.2.2 y hy x hx hgt with hnone | hne
      · rw [hgdx] at hnone
        cases hnone
      · rw [hgdx, hgdy] at hne
        have hne2 : pcy.card ≠ pcx.card := hne
        exact hne2 (by rw [hcix, hciy, hxy2])
  have hnodup : ((List.range CARDS_IN_DECK).map (fun pos =>
      ((b.cardsOnBoard.getD pos none).bind PlayedCard.card).getD 0)).Nodup :=
    List.Nodup.map_on hinj (List.nodup_range CARDS_IN_DECK)
  have hsub : ((List.range CARDS_IN_DECK).map (fun pos =>
      ((b.cardsOnBoard.getD pos none).bind PlayedCard.card).getD 0)).toFinset ⊆
      (List.range CARDS_IN_DECK).toFinset := by
    intro v hv
    rw [List.mem_toFinset, List.mem_map] at hv
    obtain ⟨pos, hpos, hval⟩ := hv
    rw [List.mem_range] at hpos
    obtain ⟨pc, ci, hgd, hci, hci9⟩ := filled_card b hinv pos hpos (hfull pos hpos)
    rw [List.mem_toFinset, List.mem_range]
    rw [hgd] at hval
    have hval2 : pc.card.getD 0 = v := hval
    rw [hci] at hval2
    simp at hval2
    omega
  have htf : ((List.range CARDS_IN_DECK).map (fun pos =>
      ((b.cardsOnBoard.getD pos none).bind PlayedCard.card).getD 0)).toFinset =
      (List.range CARDS_IN_DECK).toFinset := by
    apply Finset.eq_of_subset_of_card_le hsub
    rw [List.toFinset_card_of_nodup hnodup, List.toFinset_card_of_nodup (List.nodup_range CARDS_IN_DECK),
      List.length_map]
  have hrangeperm : ((List.range CARDS_IN_DECK).map (fun pos =>
      ((b.cardsOnBoard.getD pos none).bind PlayedCard.card).getD 0)).Perm
      (List.range CARDS_IN_DECK) :=
    List.perm_of_nodup_nodup_toFinset_eq hnodup (List.nodup_range CARDS_IN_DECK) htf
  have hidxperm : (PRINTORDER.map (fun pos =>
      ((b.cardsOnBoard.getD pos none).bind PlayedCard.card).getD 0)).Perm
      (List.range CARDS_IN_DECK) :=
    (List.Perm.map _ PRINTORDER_perm).trans hrangeperm
  have hnamesrange : (List.range CARDS_IN_DECK).map
      (fun ci => (Deck.getD ci ⟨"", []⟩).name) = deckNames := by decide
  have hperm : (PRINTORDER.map (fun pos =>
      match b.cardsOnBoard.getD pos none with
      | some pc => (Deck.getD (pc.card.getD 0) ⟨"", []⟩).name
      | none => "")).Perm deckNames := by
    rw [hmapeq, ← hnamesrange]
    exact List.Perm.map _ hidxperm
  refine ⟨_, rfl, rfl, hperm, ?_⟩
  intro nm hnm
  have hmem : nm ∈ deckNames := hperm.mem_iff.mp hnm
  have hlen2 : ∀ nm2 ∈ deckNames, nm2.length = 2 := by decide
  exact hlen2 nm hmem

/-- Fuel 1001 suffices for any sibling-chain state. -/
theorem stepBound_inr_le (c : GameState) (hn : 1 ≤ c.nextOnBoard) :
    stepBound (Sum.inr (some c)) ≤ 1001 := by
  rw [stepBound_inr_some_eq]
  have h9 : CARDS_IN_DECK = 9 := rfl
  have hcm := chainM_le c
  omega

/-- Canonical unfolding of the search at fuel 1001 on a `solve` argument. -/
theorem stepF1001_inl (s : GameState) (h : Inv s) (hb : stepBound (Sum.inl s) ≤ 1001) :
    stepF 1001 (.inl s) =
      match isSolved s true with
      | .error f => .error f
      | .ok false => .ok []
      | .ok true =>
        match isSolved s false with
        | .error f => .error f
        | .ok full =>
          match stepF 1001 (.inr (first s)) with
          | .error f => .error f
          | .ok rest => .ok ((if full then [outLine s] else []) ++ rest) := by
  have h2 : stepF 1001 (.inl s) = stepF (1001 + 1) (.inl s) :=
    stepF_stable 1001 (.inl s) (1001 + 1) h hb (by omega)
  rw [h2, stepF_inl]

/-- Canonical unfolding of the search at fuel 1001 on a loop argument. -/
theorem stepF1001_inr (c : GameState) (h1 : Inv c) (h2 : DInv c)
    (h3 : 1 ≤ c.nextOnBoard) :
    stepF 1001 (.inr (some c)) =
      match stepF 1001 (.inl c) with
      | .error f => .error f
      | .ok here =>
        match stepF 1001 (.inr (next c)) with
        | .error f => .error f
        | .ok more => .ok (here ++ more) := by
  have hb := stepBound_inr_le c h3
  have he : stepF 1001 (.inr (some c)) = stepF (1001 + 1) (.inr (some c)) :=
    stepF_stable 1001 (.inr (some c)) (1001 + 1) ⟨h1, h2, h3⟩ hb (by omega)
  rw [he, stepF_inr_some]

/-- A chain element with a nonempty subtree makes the loop output nonempty. -/
theorem NE_of_inl (c : GameState) (h1 : Inv c) (h2 : DInv c) (h3 : 1 ≤ c.nextOnBoard)
    (hne : ∃ ls, stepF 1001 (.inl c) = Except.ok ls ∧ ls ≠ []) :
    ∃ ls, stepF 1001 (.inr (some c)) = Except.ok ls ∧ ls ≠ [] := by
  obtain ⟨here, hh, hne0⟩ := hne
  obtain ⟨more, hm⟩ := stepF_ok 1001 (.inr (next c)) (stepOK_next c h1 h2 h3)
  refine ⟨here ++ more, ?_, by simp [hne0]⟩
  rw [stepF1001_inr c h1 h2 h3, hh, hm]

/-- A later sibling with nonempty output makes the loop output nonempty. -/
theorem NE_of_next (c : GameState) (h1 : Inv c) (h2 : DInv c) (h3 : 1 ≤ c.nextOnBoard)
    (hne : ∃ ls, stepF 1001 (.inr (next c)) = Except.ok ls ∧ ls ≠ []) :
    ∃ ls, stepF 1001 (.inr (some c)) = Except.ok ls ∧ ls ≠ [] := by
  obtain ⟨more, hm, hne0⟩ := hne
  obtain ⟨here, hh⟩ := stepF_ok 1001 (.inl c) h1
  refine ⟨here ++ more, ?_, by simp [hne0]⟩
  rw [stepF1001_inr c h1 h2 h3, hh, hm]

/-- A consistent node whose child loop emits something emits something. -/
theorem NE_of_first (s : GameState) (h : Inv s) (hb : stepBound (Sum.inl s) ≤ 1001)
    (ht : isSolved s true = Except.ok true)
    (hne : ∃ ls, stepF 1001 (.inr (first s)) = Except.ok ls ∧ ls ≠ []) :
    ∃ ls, stepF 1001 (.inl s) = Except.ok ls ∧ ls ≠ [] := by
  obtain ⟨rest, hr, hne0⟩ := hne
  obtain ⟨full, hf⟩ := isSolved_ok s false h
  refine ⟨(if full then [outLine s] else []) ++ rest, ?_, by simp [hne0]⟩
  rw [stepF1001_inl s h hb, ht, hf, hr]

/-- A full consistent board emits its own solution line. -/
theorem NE_of_solution (s : GameState) (h : Inv s) (hb : stepBound (Sum.inl s) ≤ 1001)
    (ht : isSolved s true = Except.ok true)
    (hfull : isSolved s false = Except.ok true) :
    ∃ ls, stepF 1001 (.inl s) = Except.ok ls ∧ ls ≠ [] := by
  obtain ⟨rest, hr⟩ := stepF_ok 1001 (.inr (first s)) (stepOK_first s h)
  refine ⟨[outLine s] ++ rest, ?_, by simp⟩
  rw [stepF1001_inl s h hb, ht, hfull, hr]
  rfl

/-- Walking a sibling chain: if some iterated `next` successor has nonempty
loop output, so does the chain start. -/
theorem NE_chain : ∀ (j : Nat) (c c' : GameState), Inv c → DInv c → 1 ≤ c.nextOnBoard →
    nextIter j c = some c' →
    (∃ ls, stepF 1001 (.inr (some c')) = Except.ok ls ∧ ls ≠ []) →
    ∃ ls, stepF 1001 (.inr (some c)) = Except.ok ls ∧ ls ≠ [] := by
  intro j
  induction j with
  | zero =>
    intro c c' _ _ _ hit hne
    have hcc : (some c : Option GameState) = some c' := hit
    rw [Option.some.inj hcc]
    exact hne
  | succ j ihj =>
    intro c c' h1 h2 h3 hit hne
    cases hnx : next c with
    | none =>
      have hnone : nextIter (j + 1) c = none := by
        show (match next c with | none => none | some c2 => nextIter j c2) = none
        rw [hnx]
      rw [hnone] at hit
      cases hit
    | some c2 =>
      have hit2 : nextIter j c2 = some c' := by
        have hstep : nextIter (j + 1) c = nextIter j c2 := by
          show (match next c with | none => none | some c2 => nextIter j c2) = _
          rw [hnx]
        rw [← hstep]
        exact hit
      obtain ⟨hI2, hD2, hn2, -⟩ := next_some_pres c c2 h1 h2 h3 hnx
      have hne2 := ihj c2 c' hI2 hD2 (by omega) hit2 hne
      apply NE_of_next c h1 h2 h3
      rw [hnx]
      exact hne2

/-- The search from the empty board emits at least one line: along the
concrete ancestor chain of the first discovered solution, every node is
consistent and every chain hop is a computed `next` iterate. -/
theorem solveRun_nonempty_aux :
    ∃ ls, stepF 1001 (Sum.inl emptyState) = Except.ok ls ∧ ls ≠ [] := by
  have h9 : ∃ ls, stepF 1001 (Sum.inl (⟨9, 2, [some ⟨1, 0, some 1⟩, some ⟨0, 1, some 0⟩, some ⟨0, 2, some 6⟩, some ⟨2, 3, some 5⟩, some ⟨1, 4, some 4⟩, some ⟨2, 5, some 3⟩, some ⟨2, 6, some 8⟩, some ⟨2, 7, some 7⟩, some ⟨2, 8, some 2⟩]⟩ : GameState)) = Except.ok ls ∧ ls ≠ [] :=
    NE_of_solution _ (by decide) (by decide) (by decide) (by decide)
  have h8 : ∃ ls, stepF 1001 (Sum.inl (⟨8, 7, [some ⟨1, 0, some 1⟩, some ⟨0, 1, some 0⟩, some ⟨0, 2, some 6⟩, some ⟨2, 3, some 5⟩, some ⟨1, 4, some 4⟩, some ⟨2, 5, some 3⟩, some ⟨2, 6, some 8⟩, some ⟨2, 7, some 7⟩, none]⟩ : GameState)) = Except.ok ls ∧ ls ≠ [] := by
    apply NE_of_first _ (by decide) (by decide) (by decide)
    rw [show first (⟨8, 7, [some ⟨1, 0, some 1⟩, some ⟨0, 1, some 0⟩, some ⟨0, 2, some 6⟩, some ⟨2, 3, some 5⟩, some ⟨1, 4, some 4⟩, some ⟨2, 5, some 3⟩, some ⟨2, 6, some 8⟩, some ⟨2, 7, some 7⟩, none]⟩ : GameState) =
      some (⟨9, 2, [some ⟨1, 0, some 1⟩, some ⟨0, 1, some 0⟩, some ⟨0, 2, some 6⟩, some ⟨2, 3, some 5⟩, some ⟨1, 4, some 4⟩, some ⟨2, 5, some 3⟩, some ⟨2, 6, some 8⟩, some ⟨2, 7, some 7⟩, some ⟨0, 8, some 2⟩]⟩ : GameState) from by decide]
    exact NE_chain 2 _
      (⟨9, 2, [some ⟨1, 0, some 1⟩, some ⟨0, 1, some 0⟩, some ⟨0, 2, some 6⟩, some ⟨2, 3, some 5⟩, some ⟨1, 4, some 4⟩, some ⟨2, 5, some 3⟩, some ⟨2, 6, some 8⟩, some ⟨2, 7, some 7⟩, some ⟨2, 8, some 2⟩]⟩ : GameState)
      (by decide) (by decide) (by decide) (by decide)
      (NE_of_inl _ (by decide) (by decide) (by decide) h9)
  have h7 : ∃ ls, stepF 1001 (Sum.inl (⟨7, 8, [some ⟨1, 0, some 1⟩, some ⟨0, 1, some 0⟩, some ⟨0, 2, some 6⟩, some ⟨2, 3, some 5⟩, some ⟨1, 4, some 4⟩, some ⟨2, 5, some 3⟩, some ⟨2, 6, some 8⟩, none, none]⟩ : GameState)) = Except.ok ls ∧ ls ≠ [] := by
    apply NE_of_first _ (by decide) (by decide) (by decide)
    rw [show first (⟨7, 8, [some ⟨1, 0, some 1⟩, some ⟨0, 1, some 0⟩, some ⟨0, 2, some 6⟩, some ⟨2, 3, some 5⟩, some ⟨1, 4, some 4⟩, some ⟨2, 5, some 3⟩, some ⟨2, 6, some 8⟩, none, none]⟩ : GameState) =
      some (⟨8, 2, [some ⟨1, 0, some 1⟩, some ⟨0, 1, some 0⟩, some ⟨0, 2, some 6⟩, some ⟨2, 3, some 5⟩, some ⟨1, 4, some 4⟩, some ⟨2, 5, some 3⟩, some ⟨2, 6, some 8⟩, some ⟨0, 7, some 2⟩, none]⟩ : GameState) from by decide]
    exact NE_chain 5 _
      (⟨8, 7, [some ⟨1, 0, some 1⟩, some ⟨0, 1, some 0⟩, some ⟨0, 2, some 6⟩, some ⟨2, 3, some 5⟩, some ⟨1, 4, some 4⟩, some ⟨2, 5, some 3⟩, some ⟨2, 6, some 8⟩, some ⟨2, 7, some 7⟩, none]⟩ : GameState)
      (by decide) (by decide) (by decide) (by decide)
      (NE_of_inl _ (by decide) (by decide) (by decide) h8)
  have h6 : ∃ ls, stepF 1001 (Sum.inl (⟨6, 3, [some ⟨1, 0, some 1⟩, some ⟨0, 1, some 0⟩, some ⟨0, 2, some 6⟩, some ⟨2, 3, some 5⟩, some ⟨1, 4, some 4⟩, some ⟨2, 5, some 3⟩, none, none, none]⟩ : GameState)) = Except.ok ls ∧ ls ≠ [] := by
    apply NE_of_first _ (by decide) (by decide) (by decide)
    rw [show first (⟨6, 3, [some ⟨1, 0, some 1⟩, some ⟨0, 1, some 0⟩, some ⟨0, 2, some 6⟩, some ⟨2, 3, some 5⟩, some ⟨1, 4, some 4⟩, some ⟨2, 5, some 3⟩, none, none, none]⟩ : GameState) =
      some (⟨7, 2, [some ⟨1, 0, some 1⟩, some ⟨0, 1, some 0⟩, some ⟨0, 2, some 6⟩, some ⟨2, 3, some 5⟩, some ⟨1, 4, some 4⟩, some ⟨2, 5, some 3⟩, some ⟨0, 6, some 2⟩, none, none]⟩ : GameState) from by decide]
    exact NE_chain 8 _
      (⟨7, 8, [some ⟨1, 0, some 1⟩, some ⟨0, 1, some 0⟩, some ⟨0, 2, some 6⟩, some ⟨2, 3, some 5⟩, some ⟨1, 4, some 4⟩, some ⟨2, 5, some 3⟩, some ⟨2, 6, some 8⟩, none, none]⟩ : GameState)
      (by decide) (by decide) (by decide) (by decide)
      (NE_of_inl _ (by decide) (by decide) (by decide) h7)
  have h5 : ∃ ls, stepF 1001 (Sum.inl (⟨5, 4, [some ⟨1, 0, some 1⟩, some ⟨0, 1, some 0⟩, some ⟨0, 2, some 6⟩, some ⟨2, 3, some 5⟩, some ⟨1, 4, some 4⟩, none, none, none, none]⟩ : GameState)) = Except.ok ls ∧ ls ≠ [] := by
    apply NE_of_first _ (by decide) (by decide) (by decide)
    rw [show first (⟨5, 4, [some ⟨1, 0, some 1⟩, some ⟨0, 1, some 0⟩, some ⟨0, 2, some 6⟩, some ⟨2, 3, some 5⟩, some ⟨1, 4, some 4⟩, none, none, none, none]⟩ : GameState) =
      some (⟨6, 2, [some ⟨1, 0, some 1⟩, some ⟨0, 1, some 0⟩, some ⟨0, 2, some 6⟩, some ⟨2, 3, some 5⟩, some ⟨1, 4, some 4⟩, some ⟨0, 5, some 2⟩, none, none, none]⟩ : GameState) from by decide]
    exact NE_chain 5 _
      (⟨6, 3, [some ⟨1, 0, some 1⟩, some ⟨0, 1, some 0⟩, some ⟨0, 2, some 6⟩, some ⟨2, 3, some 5⟩, some ⟨1, 4, some 4⟩, some ⟨2, 5, some 3⟩, none, none, none]⟩ : GameState)
      (by decide) (by decide) (by decide) (by decide)
      (NE_of_inl _ (by decide) (by decide) (by decide) h6)
  have h4 : ∃ ls, stepF 1001 (Sum.inl (⟨4, 5, [some ⟨1, 0, some 1⟩, some ⟨0, 1, some 0⟩, some ⟨0, 2, some 6⟩, some ⟨2, 3, some 5⟩, none, none, none, none, none]⟩ : GameState)) = Except.ok ls ∧ ls ≠ [] := by
    apply NE_of_first _ (by decide) (by decide) (by decide)
    rw [show first (⟨4, 5, [some ⟨1, 0, some 1⟩, some ⟨0, 1, some 0⟩, some ⟨0, 2, some 6⟩, some ⟨2, 3, some 5⟩, none, none, none, none, none]⟩ : GameState) =
      some (⟨5, 2, [some ⟨1, 0, some 1⟩, some ⟨0, 1, some 0⟩, some ⟨0, 2, some 6⟩, some ⟨2, 3, some 5⟩, some ⟨0, 4, some 2⟩, none, none, none, none]⟩ : GameState) from by decide]
    exact NE_chain 7 _
      (⟨5, 4, [some ⟨1, 0, some 1⟩, some ⟨0, 1, some 0⟩, some ⟨0, 2, some 6⟩, some ⟨2, 3, some 5⟩, some ⟨1, 4, some 4⟩, none, none, none, none]⟩ : GameState)
      (by decide) (by decide) (by decide) (by decide)
      (NE_of_inl _ (by decide) (by decide) (by decide) h5)
  have h3 : ∃ ls, stepF 1001 (Sum.inl (⟨3, 6, [some ⟨1, 0, some 1⟩, some ⟨0, 1, some 0⟩, some ⟨0, 2, some 6⟩, none, none, none, none, none, none]⟩ : GameState)) = Except.ok ls ∧ ls ≠ [] := by
    apply NE_of_first _ (by decide) (by decide) (by decide)
    rw [show first (⟨3, 6, [some ⟨1, 0, some 1⟩, some ⟨0, 1, some 0⟩, some ⟨0, 2, some 6⟩, none, none, none, none, none, none]⟩ : GameState) =
      some (⟨4, 2, [some ⟨1, 0, some 1⟩, some ⟨0, 1, some 0⟩, some ⟨0, 2, some 6⟩, some ⟨0, 3, some 2⟩, none, none, none, none, none]⟩ : GameState) from by decide]
    exact NE_chain 11 _
      (⟨4, 5, [some ⟨1, 0, some 1⟩, some ⟨0, 1, some 0⟩, some ⟨0, 2, some 6⟩, some ⟨2, 3, some 5⟩, none, none, none, none, none]⟩ : GameState)
      (by decide) (by decide) (by decide) (by decide)
      (NE_of_inl _ (by decide) (by decide) (by decide) h4)
  have h2 : ∃ ls, stepF 1001 (Sum.inl (⟨2, 0, [some ⟨1, 0, some 1⟩, some ⟨0, 1, some 0⟩, none, none, none, none, none, none, none]⟩ : GameState)) = Except.ok ls ∧ ls ≠ [] := by
    apply NE_of_first _ (by decide) (by decide) (by decide)
    rw [show first (⟨2, 0, [some ⟨1, 0, some 1⟩, some ⟨0, 1, some 0⟩, none, none, none, none, none, none, none]⟩ : GameState) =
      some (⟨3, 2, [some ⟨1, 0, some 1⟩, some ⟨0, 1, some 0⟩, some ⟨0, 2, some 2⟩, none, none, none, none, none, none]⟩ : GameState) from by decide]
    exact NE_chain 12 _
      (⟨3, 6, [some ⟨1, 0, some 1⟩, some ⟨0, 1, some 0⟩, some ⟨0, 2, some 6⟩, none, none, none, none, none, none]⟩ : GameState)
      (by decide) (by decide) (by decide) (by decide)
      (NE_of_inl _ (by decide) (by decide) (by decide) h3)
  have h1 : ∃ ls, stepF 1001 (Sum.inl (⟨1, 1, [some ⟨1, 0, some 1⟩, none, none, none, none, none, none, none, none]⟩ : GameState)) = Except.ok ls ∧ ls ≠ [] := by
    apply NE_of_first _ (by decide) (by decide) (by decide)
    rw [show first (⟨1, 1, [some ⟨1, 0, some 1⟩, none, none, none, none, none, none, none, none]⟩ : GameState) =
      some (⟨2, 0, [some ⟨1, 0, some 1⟩, some ⟨0, 1, some 0⟩, none, none, none, none, none, none, none]⟩ : GameState) from by decide]
    exact NE_chain 0 _
      (⟨2, 0, [some ⟨1, 0, some 1⟩, some ⟨0, 1, some 0⟩, none, none, none, none, none, none, none]⟩ : GameState)
      (by decide) (by decide) (by decide) (by decide)
      (NE_of_inl _ (by decide) (by decide) (by decide) h2)
  have h0 : ∃ ls, stepF 1001 (Sum.inl emptyState) = Except.ok ls ∧ ls ≠ [] := by
    apply NE_of_first _ (by decide) (by decide) (by decide)
    rw [show first emptyState =
      some (⟨1, 0, [some ⟨0, 0, some 0⟩, none, none, none, none, none, none, none, none]⟩ : GameState) from by decide]
    exact NE_chain 4 _
      (⟨1, 1, [some ⟨1, 0, some 1⟩, none, none, none, none, none, none, none, none]⟩ : GameState)
      (by decide) (by decide) (by decide) (by decide)
      (NE_of_inl _ (by decide) (by decide) (by decide) h1)
  exact h0

/-- Claim C1: running the full search from the empty board to completion
emits at least one solution line; every emitted line is the `output` line of
a board that satisfies the full (`partial = false`) consistency check over
all 9 adjacency pairs, has all 9 positions filled, and prints as `[` + the 9
comma-separated 2-character card names in the fixed print order
{6,2,0,1,7,3,4,5,8} + `]`, the names being a permutation of the distinct
catalog names P1..P9 (each used exactly once). -/
theorem solve_run_solutions :
    ∃ lines, solveRun = Except.ok lines ∧ lines ≠ [] ∧
      ∀ l ∈ lines, ∃ b names,
        Inv b ∧ isSolved b false = Except.ok true ∧ l = outLine b ∧
        (∀ i < CARDS_IN_DECK, (b.cardsOnBoard.getD i none).isSome = true) ∧
        names = PRINTORDER.map (fun pos =>
          match b.cardsOnBoard.getD pos none with
          | some pc => (Deck.getD (pc.card.getD 0) ⟨"", []⟩).name
          | none => "") ∧
        l = "[" ++ String.intercalate "," names ++ "]" ∧
        names.Perm deckNames ∧ (∀ nm ∈ names, nm.length = 2) := by
  have hstab : solveRun = stepF 1001 (Sum.inl emptyState) := by
    unfold solveRun solveF
    exact stepF_stable 1000 (Sum.inl emptyState) 1001 Inv_emptyState (by decide) (by decide)
  obtain ⟨lines, hls, hne⟩ := solveRun_nonempty_aux
  refine ⟨lines, by rw [hstab]; exact hls, hne, ?_⟩
  intro l hl
  obtain ⟨b, hbInv, hbFull, hbLine⟩ :=
    stepF_lines 1001 (Sum.inl emptyState) Inv_emptyState lines hls l hl
  have hfilled := isSolved_false_filled b hbFull
  obtain ⟨names, hnames, hout, hperm, hlen2⟩ := outLine_names b hbInv hfilled
  exact ⟨b, names, hbInv, hbFull, hbLine, hfilled, hnames, hbLine.trans hout, hperm, hlen2⟩

/-- Claim C9: the recursive search terminates on every state reachable from
the empty board — beyond the explicit fuel bound `stepBound`, the fuelled
search result no longer depends on the fuel, because the `first` recursion is
bounded by the 9 board positions and each `next` chain strictly decreases the
bounded chain measure. -/
theorem solve_terminates (s : GameState) (h : Reachable s) (m n : Nat)
    (hm : stepBound (Sum.inl s) ≤ m) (hn : stepBound (Sum.inl s) ≤ n) :
    solveF m s = solveF n s := by
  have hi := (Reachable_inv_dinv s h).1
  unfold solveF
  exact stepF_stable m (.inl s) n hi hm hn

/-- Witness for C9: from the empty board, fuels 1000 and 1001 give the same
completed search. -/
theorem solve_terminates_witness :
    solveF 1000 emptyState = solveF 1001 emptyState :=
  solve_terminates emptyState Reachable.root 1000 1001 (by decide) (by decide)

end Megakolmio
